import Mathlib

/-!
# A model of the y-mongodb-provider update-log manager

This file gives a shallow embedding of the core of the `y-mongodb-provider`
package (files `src/mongo-adapter.ts`, `src/utils.ts`, `src/y-mongodb.ts`)
and proves properties of it.

Modelling conventions:

* A MongoDB document is a `StoredDoc`: the fields that the source ever
  writes (`version`, `docName`, `action`, `clock`, `part`, `metaKey`,
  `value`).  Optional fields are `Option`s; a `none` models an absent field.
* A collection is a `List StoredDoc` in insertion order (the shared
  single-collection configuration, `multipleCollections = false`).
* Binary payloads (`Uint8Array` / `Buffer`) are `List Nat`.
* Mongo queries are `Query` values: an equality constraint per field plus
  the `$gte/$lt` range form used for `clock`.  A missing field in a stored
  document never matches an equality constraint, as in MongoDB.
* The Yjs library is external to this package; following the source's use
  of it (`Y.applyUpdate` to a fresh `Y.Doc`, then `Y.encodeStateAsUpdate` /
  `Y.encodeStateVector`) it is modelled as one opaque function
  `merge : List Bytes → Bytes × Bytes` packaged in a `YModel`.
* Promise rejections / thrown exceptions are `Except String`.
-/

abbrev Bytes := List Nat

deriving instance DecidableEq for Except

/-- One MongoDB document as written by this package. -/
structure StoredDoc where
  version : String
  docName : String
  action  : Option String := none
  clock   : Option Nat := none
  part    : Option Nat := none
  metaKey : Option String := none
  value   : Bytes := []
deriving DecidableEq

/-- The `clock` constraint of a query: absent, equality, or the
`{$gte: lo, $lt: hi}` range used by `getCurrentUpdateClock`,
`clearUpdatesRange` and `clearDocument`. -/
inductive ClockQuery
  | any : ClockQuery
  | eq : Nat → ClockQuery
  | range : Nat → Nat → ClockQuery
deriving DecidableEq

/-- A MongoDB query as used by the source: per-field equality constraints
(and possibly a range constraint on `clock`). -/
structure Query where
  version : Option String := none
  action  : Option String := none
  docName : Option String := none
  clock   : ClockQuery := .any
  part    : Option Nat := none
  metaKey : Option String := none
deriving DecidableEq

/-- Mongo equality semantics for an optional field: an absent query field
constrains nothing; a present one requires the stored field to exist and
be equal. -/
def optMatches {α : Type} [DecidableEq α] (q : Option α) (f : Option α) : Bool :=
  match q with
  | none => true
  | some v => f = some v

def clockMatches (q : ClockQuery) (c : Option Nat) : Bool :=
  match q with
  | .any => true
  | .eq n => c = some n
  | .range lo hi =>
    match c with
    | none => false
    | some n => decide (lo ≤ n ∧ n < hi)

def matchesQuery (q : Query) (r : StoredDoc) : Bool :=
  optMatches q.version (some r.version) &&
  optMatches q.action r.action &&
  optMatches q.docName (some r.docName) &&
  clockMatches q.clock r.clock &&
  optMatches q.part r.part &&
  optMatches q.metaKey r.metaKey

/-- The shared collection (`multipleCollections = false`). -/
abbrev DB := List StoredDoc

def clockOf (r : StoredDoc) : Nat := r.clock.getD 0
def partOf (r : StoredDoc) : Nat := r.part.getD 0

/-! ## MongoAdapter (src/mongo-adapter.ts) -/

/-- `MongoAdapter.get`: `collection.findOne(query)` — first match in
natural (insertion) order. -/
def adapterGet (db : DB) (q : Query) : Option StoredDoc :=
  (db.filter (matchesQuery q)).head?

/-- The document inserted by an upserting `updateOne(query, {$set: values})`
when nothing matches: the query's equality fields plus the set fields. -/
def recordOfQuery (q : Query) (v : Bytes) : StoredDoc :=
  { version := q.version.getD ""
    docName := q.docName.getD ""
    action := q.action
    clock := match q.clock with
      | .eq n => some n
      | _ => none
    part := q.part
    metaKey := q.metaKey
    value := v }

/-- `updateOne` updates the first matching document. -/
def setValueFirst (p : StoredDoc → Bool) (v : Bytes) : DB → DB
  | [] => []
  | r :: rs => if p r then { r with value := v } :: rs else r :: setValueFirst p v rs

def upsertRecord (q : Query) (v : Bytes) (db : DB) : DB :=
  if db.any (matchesQuery q) then setValueFirst (matchesQuery q) v db
  else db ++ [recordOfQuery q v]

/-- `MongoAdapter.put`: throws `'Document and version must be provided'`
unless `query.docName`, `query.version` and `values.value` are truthy,
then upserts.  A JS string is falsy exactly when empty; the `value`
passed by this package is always a `Uint8Array`/`Buffer` (an object),
which is truthy even when empty, so only the name checks can fire here. -/
def adapterPut (db : DB) (q : Query) (v : Bytes) : Except String DB :=
  match q.docName, q.version with
  | some d, some ver =>
    if d = "" ∨ ver = "" then .error "Document and version must be provided"
    else .ok (upsertRecord q v db)
  | _, _ => .error "Document and version must be provided"

/-- `MongoAdapter.del`: removes every matching document. -/
def adapterDel (db : DB) (q : Query) : DB :=
  db.filter (fun r => !matchesQuery q r)

/-- Sort order `{clock: 1, part: 1}` (ascending; a missing numeric field
sorts lowest, modelled by `getD 0` — stored `part` values are ≥ 1). -/
def leFwd (a b : StoredDoc) : Prop :=
  clockOf a < clockOf b ∨ (clockOf a = clockOf b ∧ partOf a ≤ partOf b)

/-- Sort order `{clock: -1, part: 1}` (the `reverse` option). -/
def leRev (a b : StoredDoc) : Prop :=
  clockOf b < clockOf a ∨ (clockOf a = clockOf b ∧ partOf a ≤ partOf b)

instance : DecidableRel leFwd := fun a b => by unfold leFwd; infer_instance
instance : DecidableRel leRev := fun a b => by unfold leRev; infer_instance
instance : IsTotal StoredDoc leFwd := ⟨by intro a b; unfold leFwd; omega⟩
instance : IsTrans StoredDoc leFwd := ⟨by intro a b c; unfold leFwd; omega⟩
instance : IsTotal StoredDoc leRev := ⟨by intro a b; unfold leRev; omega⟩
instance : IsTrans StoredDoc leRev := ⟨by intro a b c; unfold leRev; omega⟩

/-- `MongoAdapter.readAsCursor`: filter, sort, and apply `limit`
(`limit 0` means no limit, as in MongoDB). -/
def readAsCursor (db : DB) (q : Query) (lim : Nat) (reverse : Bool) : List StoredDoc :=
  let matched := db.filter (matchesQuery q)
  let sorted := if reverse then List.insertionSort leRev matched
    else List.insertionSort leFwd matched
  if lim = 0 then sorted else sorted.take lim

/-! ## Record keys and the state-vector envelope codec (src/utils.ts) -/

def PREFERRED_TRIM_SIZE : Nat := 400
def MAX_DOCUMENT_SIZE : Nat := 15000000
/-- `lib0` `binary.BITS32 = 0xFFFFFFFF`. -/
def BITS32 : Nat := 4294967295

def createDocumentUpdateKey (docName : String) (clock : Option Nat) : Query :=
  match clock with
  | some c =>
    { version := some "v1", action := some "update", docName := some docName,
      clock := .eq c }
  | none =>
    { version := some "v1", action := some "update", docName := some docName }

def createDocumentStateVectorKey (docName : String) : Query :=
  { docName := some docName, version := some "v1_sv" }

def createDocumentMetaKey (docName metaKey : String) : Query :=
  { version := some "v1", docName := some docName, metaKey := some ("meta_" ++ metaKey) }

/-- `lib0` `encoding.writeVarUint`: little-endian base-128 groups, high bit
set on every byte except the last.  The `while num > BITS7` loop is run
with `fuel` as an upper bound on the iteration count so that the
definition is structurally recursive; since `n / 128 ≤ fuel - 1` whenever
`n ≤ fuel` and `128 ≤ n`, `encodeVarUint` below never exhausts it. -/
def encodeVarUintAux : Nat → Nat → Bytes
  | 0, n => [n % 128]
  | fuel + 1, n =>
    if n < 128 then [n] else (n % 128 + 128) :: encodeVarUintAux fuel (n / 128)

def encodeVarUint (n : Nat) : Bytes :=
  encodeVarUintAux n n

/-- `lib0` `decoding.readVarUint`; `none` models the exception thrown on
truncated input. -/
def decodeVarUint : Bytes → Option (Nat × Bytes)
  | [] => none
  | b :: rest =>
    if b < 128 then some (b, rest)
    else
      match decodeVarUint rest with
      | none => none
      | some (n, rest') => some (b - 128 + 128 * n, rest')

/-- The value stored in a state-vector record: varuint clock, then the
length-prefixed state-vector bytes (`writeVarUint` + `writeVarUint8Array`). -/
def encodeStateVectorValue (clock : Nat) (sv : Bytes) : Bytes :=
  encodeVarUint clock ++ (encodeVarUint sv.length ++ sv)

/-- `decodeMongodbStateVector` (clock then `readVarUint8Array`); `none`
models the exception on malformed input. -/
def decodeStateVectorValue (buf : Bytes) : Option (Nat × Bytes) :=
  match decodeVarUint buf with
  | none => none
  | some (clock, rest) =>
    match decodeVarUint rest with
    | none => none
    | some (len, rest') =>
      if len ≤ rest'.length then some (clock, rest'.take len) else none

/-! ## The Yjs library, as used by the source -/

/-- The external CRDT library: `merge updates` returns
`(Y.encodeStateAsUpdate ydoc, Y.encodeStateVector ydoc)` for a fresh
`Y.Doc` to which all of `updates` were applied (`mergeUpdates` in
src/utils.ts builds exactly this pair). -/
structure YModel where
  merge : List Bytes → Bytes × Bytes

def mergeUpdates (M : YModel) (updates : List Bytes) : Bytes × Bytes :=
  M.merge updates

/-! ## Update-log engine (src/utils.ts) -/

/-- `clearUpdatesRange`: delete every document of `docName` whose `clock`
is in `[fromClock, toClock)`. -/
def clearUpdatesRange (db : DB) (docName : String) (fromClock toClock : Nat) : DB :=
  adapterDel db { docName := some docName, clock := .range fromClock toClock }

/-- `getCurrentUpdateClock`: read the update records with
`clock ∈ [0, BITS32)` in descending clock order, limit 1; `-1` when none. -/
def getCurrentUpdateClock (db : DB) (docName : String) : Int :=
  let q : Query :=
    { createDocumentUpdateKey docName (some 0) with clock := .range 0 BITS32 }
  match readAsCursor db q 1 true with
  | [] => -1
  | r :: _ => (clockOf r : Int)

def writeStateVector (db : DB) (docName : String) (sv : Bytes) (clock : Nat) :
    Except String DB :=
  adapterPut db (createDocumentStateVectorKey docName) (encodeStateVectorValue clock sv)

/-- `readStateVector`: `{sv: null, clock: -1}` (here `none`) when no
state-vector record exists, else decode its value. -/
def readStateVector (db : DB) (docName : String) :
    Except String (Option (Nat × Bytes)) :=
  match adapterGet db (createDocumentStateVectorKey docName) with
  | none => .ok none
  | some r =>
    match decodeStateVectorValue r.value with
    | none => .error "No buffer provided at decodeMongodbStateVector()"
    | some cs => .ok (some cs)

/-- `update.subarray(i * MAX, min(i * MAX + MAX, update.length))`. -/
def chunkSlice (update : Bytes) (i : Nat) : Bytes :=
  (update.drop (i * MAX_DOCUMENT_SIZE)).take
    (min (i * MAX_DOCUMENT_SIZE + MAX_DOCUMENT_SIZE) update.length - i * MAX_DOCUMENT_SIZE)

/-- `Math.ceil(update.length / MAX_DOCUMENT_SIZE)`. -/
def totalChunksOf (len : Nat) : Nat :=
  (len + MAX_DOCUMENT_SIZE - 1) / MAX_DOCUMENT_SIZE

/-- The chunk store loop of `storeUpdate`: one `put` per chunk with
`part = i + 1` (the `Promise.all` completes only when every put does;
the inserts are modelled in index order). -/
def putChunksAux (docName : String) (newClock : Nat) (update : Bytes) :
    DB → List Nat → Except String DB
  | db, [] => .ok db
  | db, i :: is =>
    match adapterPut db
        { createDocumentUpdateKey docName (some newClock) with part := some (i + 1) }
        (chunkSlice update i) with
    | .error e => .error e
    | .ok db' => putChunksAux docName newClock update db' is

/-- `storeUpdate` (src/utils.ts): fetch the clock, write the clock-0 state
vector on first contact, then store the update whole or in chunks.
Returns `(db, clock + 1)`. -/
def storeUpdate (M : YModel) (db : DB) (docName : String) (update : Bytes) :
    Except String (DB × Nat) := do
  let clock := getCurrentUpdateClock db docName
  let db ←
    if clock = -1 then
      writeStateVector db docName (M.merge [update]).2 0
    else
      .ok db
  let newClock := (clock + 1).toNat
  if update.length ≤ MAX_DOCUMENT_SIZE then
    let db ← adapterPut db (createDocumentUpdateKey docName (some newClock)) update
    return (db, newClock)
  else
    let db ← putChunksAux docName newClock update db
      (List.range (totalChunksOf update.length))
    return (db, newClock)

/-- `_convertMongoUpdates`, written as the explicit scanner over the sorted
record stream.  The state is `none` while the JS outer `i` loop is between
updates, and `some (clk, currentPartId, acc)` while the inner `j` loop is
accumulating the parts of the chunked update begun by a `part = 1` record
with clock `clk`.  A record without a `part` (or with the impossible
falsy `part = 0`) is a complete update; a `part = 1` record begins a run;
a record carrying any other `part` outside a run is skipped by the JS
`if/else if` with no `else`; inside a run, a same-clock record must carry
exactly the next part id or the JS code throws; a different clock ends the
run, whose concatenation is emitted before the record is reconsidered. -/
def convertLoop : Option (Option Nat × Nat × Bytes) → List StoredDoc →
    Except String (List Bytes)
  | none, [] => .ok []
  | some (_, _, acc), [] => .ok [acc]
  | none, d :: rest =>
    match d.part with
    | none => (convertLoop none rest).map (d.value :: ·)
    | some 0 => (convertLoop none rest).map (d.value :: ·)
    | some 1 => convertLoop (some (d.clock, 1, d.value)) rest
    | some (_ + 2) => convertLoop none rest
  | some (clk, currentPartId, acc), d :: rest =>
    if d.clock = clk then
      match d.part with
      | some p =>
        if p = currentPartId + 1 then convertLoop (some (clk, p, acc ++ d.value)) rest
        else .error "Couldnt merge updates together because a part is missing!"
      | none => .error "Couldnt merge updates together because a part is missing!"
    else
      (match d.part with
        | none => (convertLoop none rest).map (d.value :: ·)
        | some 0 => (convertLoop none rest).map (d.value :: ·)
        | some 1 => convertLoop (some (d.clock, 1, d.value)) rest
        | some (_ + 2) => convertLoop none rest).map (acc :: ·)

def convertMongoUpdates (docs : List StoredDoc) : Except String (List Bytes) :=
  convertLoop none docs

/-- `getMongoUpdates`: all update records of `docName`, sorted ascending by
`(clock, part)`, reassembled. -/
def getMongoUpdates (db : DB) (docName : String) : Except String (List Bytes) :=
  convertMongoUpdates (readAsCursor db (createDocumentUpdateKey docName none) 0 false)

/-- `flushDocument` (src/utils.ts): store the merged update at a fresh
terminal clock, write the state vector at that clock, then delete every
update record with clock in `[0, terminal)`. -/
def flushDocument (M : YModel) (db : DB) (docName : String)
    (stateAsUpdate stateVector : Bytes) : Except String (DB × Nat) := do
  let (db, clock) ← storeUpdate M db docName stateAsUpdate
  let db ← writeStateVector db docName stateVector clock
  return (clearUpdatesRange db docName 0 clock, clock)

def getAllSVDocs (db : DB) : List StoredDoc :=
  readAsCursor db { version := some "v1_sv" } 0 false

/-! ## MongodbPersistence facade (src/y-mongodb.ts), shared-collection mode -/

/-- `getYDoc`: reassemble, apply all updates to a fresh doc (so the doc is
`M.merge updates`), and flush when more than `flushSize` reassembled
updates were applied.  Returns the new store plus the materialized doc as
its `(encodeStateAsUpdate, encodeStateVector)` pair. -/
def getYDoc (M : YModel) (db : DB) (docName : String) (flushSize : Nat) :
    Except String (DB × Bytes × Bytes) := do
  let updates ← getMongoUpdates db docName
  let uv := M.merge updates
  if flushSize < updates.length then
    let (db2, _) ← flushDocument M db docName uv.1 uv.2
    return (db2, uv)
  else
    return (db, uv)

/-- `getStateVector`: return the stored summary when its recorded clock
equals the current update clock; otherwise recompute by merging all
updates and flushing. -/
def getStateVector (M : YModel) (db : DB) (docName : String) :
    Except String (DB × Bytes) := do
  let sv ← readStateVector db docName
  match sv with
  | some (clock, sv) =>
    let curClock := getCurrentUpdateClock db docName
    if (clock : Int) = curClock then
      return (db, sv)
    else
      let updates ← getMongoUpdates db docName
      let uv := M.merge updates
      let (db2, _) ← flushDocument M db docName uv.1 uv.2
      return (db2, uv.2)
  | none =>
    let updates ← getMongoUpdates db docName
    let uv := M.merge updates
    let (db2, _) ← flushDocument M db docName uv.1 uv.2
    return (db2, uv.2)

/-- `clearDocument` in shared-collection mode: delete the state-vector
record, then the clock range `[0, BITS32)`. -/
def clearDocument (db : DB) (docName : String) : DB :=
  clearUpdatesRange (adapterDel db (createDocumentStateVectorKey docName))
    docName 0 BITS32

/-- `setMeta` (value stored as-is). -/
def setMeta (db : DB) (docName metaKey : String) (value : Bytes) : Except String DB :=
  adapterPut db (createDocumentMetaKey docName metaKey) value

/-- `getMeta`: `undefined` when no record exists.  In this byte-valued
model a stored value is a `Buffer`, which is truthy in JS even when
empty, so the `!res?.value` test reduces to record existence. -/
def getMeta (db : DB) (docName metaKey : String) : Option Bytes :=
  match adapterGet db (createDocumentMetaKey docName metaKey) with
  | none => none
  | some r => some r.value

def delMeta (db : DB) (docName metaKey : String) : DB :=
  adapterDel db (createDocumentMetaKey docName metaKey)

/-- `getAllDocNames` in shared-collection mode: the doc names of all
state-vector records. -/
def getAllDocNames (db : DB) : List String :=
  (getAllSVDocs db).map (·.docName)

/-- `MongodbPersistence.flushDocument`: reassemble, merge, flush.  The
source discards the results; they are returned here so the effect can be
specified. -/
def flushDocumentCommand (M : YModel) (db : DB) (docName : String) :
    Except String (DB × Bytes × Bytes) := do
  let updates ← getMongoUpdates db docName
  let uv := M.merge updates
  let (db2, _) ← flushDocument M db docName uv.1 uv.2
  return (db2, uv)

/-! ## The per-document transaction queue (`_transact` in src/y-mongodb.ts) -/

/-- One queued operation: it transforms the store and either produces a
result or throws (possibly after a partial mutation, which the pair
return type records). -/
def TransactOp (α : Type) : Type := DB → DB × Except String α

/-- The `try/catch` around `await f(db)`: the caller of `_transact`
receives `null` (`none`) instead of the rejection. -/
def transactStep {α : Type} (f : TransactOp α) (db : DB) : DB × Option α :=
  let r := f db
  (r.1, r.2.toOption)

/-- The promise chain kept per `docName`: each queued operation awaits the
previous tail and runs `transactStep`; the queue then advances regardless
of failure. -/
def runQueue {α : Type} : List (TransactOp α) → DB → DB × List (Option α)
  | [], db => (db, [])
  | f :: fs, db =>
    let r := transactStep f db
    let rest := runQueue fs r.1
    (rest.1, r.2 :: rest.2)

/-! ## A small JS-valued model for metadata (`setMeta`/`getMeta` with an
arbitrary `value: any`, src/y-mongodb.ts + `MongoAdapter.put`) -/

inductive JsValue
  | jsNull : JsValue
  | undef : JsValue
  | bool : Bool → JsValue
  | num : Int → JsValue
  | str : String → JsValue
  | buf : Bytes → JsValue
deriving DecidableEq

/-- JS truthiness (a buffer/object is always truthy). -/
def JsValue.truthy : JsValue → Bool
  | .jsNull => false
  | .undef => false
  | .bool b => b
  | .num n => n != 0
  | .str s => s != ""
  | .buf _ => true

structure MetaDoc where
  docName : String
  metaKey : String
  value : JsValue
deriving DecidableEq

/-- `MongoAdapter.put` for a meta record with an arbitrary JS value: the
query is `createDocumentMetaKey` (version `"v1"`, always truthy), so the
`!query.docName || !query.version || !values.value` guard throws exactly
when the doc name is empty or the value is falsy. -/
def putMetaJs (db : List MetaDoc) (docName metaKey : String) (v : JsValue) :
    Except String (List MetaDoc) :=
  if docName = "" ∨ v.truthy = false then .error "Document and version must be provided"
  else
    .ok (if db.any (fun r => r.docName = docName ∧ r.metaKey = "meta_" ++ metaKey) then
      db.map (fun r =>
        if r.docName = docName ∧ r.metaKey = "meta_" ++ metaKey then
          { r with value := v } else r)
    else db ++ [⟨docName, "meta_" ++ metaKey, v⟩])

/-- `setMeta` through `_transact`: a rejection is caught and the caller
sees `none`; on success the caller sees the stored value. -/
def setMetaJs (db : List MetaDoc) (docName metaKey : String) (v : JsValue) :
    List MetaDoc × Option JsValue :=
  match putMetaJs db docName metaKey v with
  | .ok db' => (db', some v)
  | .error _ => (db, none)

/-- `getMeta`: `undefined` when no record exists or its value is falsy. -/
def getMetaJs (db : List MetaDoc) (docName metaKey : String) : Option JsValue :=
  match (db.filter
      (fun r => r.docName = docName ∧ r.metaKey = "meta_" ++ metaKey)).head? with
  | none => none
  | some r => if r.value.truthy then some r.value else none

/-! ## Chunk records: what `storeUpdate` writes for one update -/

def updateRecordOf (docName : String) (clock : Nat) (v : Bytes) : StoredDoc :=
  { version := "v1", docName := docName, action := some "update",
    clock := some clock, part := none, metaKey := none, value := v }

def chunkRecordOf (docName : String) (clock i : Nat) (v : Bytes) : StoredDoc :=
  { updateRecordOf docName clock v with part := some (i + 1) }

/-- The records written for one update by `storeUpdate`: one record below
the size budget, else `part`-numbered chunks. -/
def storedChunks (docName : String) (clock : Nat) (u : Bytes) : List StoredDoc :=
  if u.length ≤ MAX_DOCUMENT_SIZE then [updateRecordOf docName clock u]
  else (List.range (totalChunksOf u.length)).map
    (fun i => chunkRecordOf docName clock i (chunkSlice u i))

/-- A contiguous run of part records with consecutive part ids (what the
chunk tail of `storedChunks` looks like). -/
def partRun (docName : String) (clock : Nat) : Nat → List Bytes → List StoredDoc
  | _, [] => []
  | p, v :: vs =>
    { updateRecordOf docName clock v with part := some p } ::
      partRun docName clock (p + 1) vs

/-! ## Views of the store and the well-formedness invariant -/

/-- The update records of a document (the matches of
`createDocumentUpdateKey docName` with no clock). -/
def updateRecords (db : DB) (docName : String) : List StoredDoc :=
  db.filter (matchesQuery (createDocumentUpdateKey docName none))

/-- The metadata records of a document: its records carrying a `metaKey`
field. -/
def metaRecords (db : DB) (docName : String) : List StoredDoc :=
  db.filter (fun r => r.docName == docName && r.metaKey.isSome)

/-- The value of the document's state-vector record, as `adapterGet` finds
it. -/
def svValueOf (db : DB) (docName : String) : Option Bytes :=
  (adapterGet db (createDocumentStateVectorKey docName)).map (fun r => r.value)

/-- Shape invariant for the records of one document, satisfied by
everything this package writes: an update record carries
`version "v1"`, `action "update"`, a clock below `bound` and no meta key;
a state-vector record carries `version "v1_sv"` and neither clock nor meta
key nor action; a metadata record carries `version "v1"`, a meta key, and
neither clock nor action. -/
def wfRecord (bound : Nat) (docName : String) (r : StoredDoc) : Bool :=
  if r.docName == docName then
    (r.version == "v1" && r.action == some "update" && r.metaKey == none &&
      (match r.clock with
        | some c => decide (c < bound)
        | none => false))
    || (r.version == "v1_sv" && r.action == none && r.clock == none &&
        r.metaKey == none)
    || (r.version == "v1" && r.action == none && r.clock == none &&
        r.metaKey.isSome)
  else true

def WFDoc (bound : Nat) (db : DB) (docName : String) : Prop :=
  ∀ r ∈ db, wfRecord bound docName r = true

def sameShape (a b : StoredDoc) : Prop :=
  a.version = b.version ∧ a.docName = b.docName ∧ a.action = b.action ∧
    a.clock = b.clock ∧ a.part = b.part ∧ a.metaKey = b.metaKey

/-! ## Concrete instances used to exercise the theorems -/

/-- A concrete Yjs stand-in: merging concatenates, and the state vector of
the result is the same concatenation.  It satisfies the merge laws the
abstract theorems assume. -/
def trivialYModel : YModel := ⟨fun us => (us.flatten, us.flatten)⟩

/-- A payload one byte over the single-record budget. -/
def bigPayload : Bytes := List.replicate 15000001 0

/-- The store after `storeUpdate` wrote a 15000001-byte payload into an
empty store: the first-contact state vector plus two chunk records
(`part` 1 and 2) sharing clock 0. -/
def chunkedDb : DB :=
  [⟨"v1_sv", "doc", none, none, none, none, encodeStateVectorValue 0 bigPayload⟩,
   ⟨"v1", "doc", some "update", some 0, some 1, none, List.replicate 15000000 0⟩,
   ⟨"v1", "doc", some "update", some 0, some 2, none, [0]⟩]

/-! ## Generic helper lemmas -/

theorem exceptMap_eq_ok {ε α β : Type} {f : α → β} {e : Except ε α} {b : β} :
    e.map f = .ok b ↔ ∃ a, e = .ok a ∧ b = f a := by
  cases e <;> simp [Except.map, eq_comm]

theorem orderedInsert_append_right {α : Type} {r : α → α → Prop} [DecidableRel r]
    (a : α) (X Y : List α) (h : ∀ y ∈ Y, r a y) :
    List.orderedInsert r a (X ++ Y) = List.orderedInsert r a X ++ Y := by
  induction X with
  | nil =>
    cases Y with
    | nil => rfl
    | cons y Y' =>
      simp only [List.nil_append, List.orderedInsert]
      rw [if_pos (h y (by simp))]
      rfl
  | cons x X' ih =>
    by_cases hx : r a x
    · simp [List.orderedInsert, hx]
    · simp [List.orderedInsert, hx, ih]

theorem insertionSort_append_of {α : Type} {r : α → α → Prop} [DecidableRel r]
    (A B : List α) (hAB : ∀ a ∈ A, ∀ b ∈ B, r a b) :
    List.insertionSort r (A ++ B) = List.insertionSort r A ++ List.insertionSort r B := by
  induction A with
  | nil => simp
  | cons a A' ih =>
    simp only [List.cons_append, List.insertionSort, List.append_eq]
    rw [ih (fun x hx => hAB x (List.mem_cons_of_mem a hx)),
      orderedInsert_append_right a _ _ (fun y hy =>
        hAB a (List.mem_cons_self a A') y ((List.perm_insertionSort r B).mem_iff.mp hy))]

/-! ## Reassembly lemmas (`convertLoop`) -/

/-- While a part run is being accumulated, a record with a different clock
ends it: the run's concatenation is emitted and the record is processed
afresh. -/
theorem convertLoop_some_ne (clk : Option Nat) (cur : Nat) (acc : Bytes)
    (d : StoredDoc) (rest : List StoredDoc) (h : ¬d.clock = clk) :
    convertLoop (some (clk, cur, acc)) (d :: rest) =
      (convertLoop none (d :: rest)).map (acc :: ·) := by
  conv_lhs => rw [convertLoop]
  rw [if_neg h]
  rfl

/-- Consuming a list whose clocks are disjoint from a trailing block `Y`
converts the two blocks independently. -/
theorem convertLoop_append (Y : List StoredDoc) (X : List StoredDoc) :
    ∀ (st : Option (Option Nat × Nat × Bytes)) (us : List Bytes),
    convertLoop st X = .ok us →
    (∀ y ∈ Y, ∀ x ∈ X, y.clock ≠ x.clock) →
    (∀ clk cur acc, st = some (clk, cur, acc) → ∀ y ∈ Y, y.clock ≠ clk) →
    convertLoop st (X ++ Y) = (convertLoop none Y).map (us ++ ·) := by
  induction X with
  | nil =>
    intro st us h _ hst
    cases st with
    | none =>
      simp only [convertLoop, Except.ok.injEq] at h
      subst h
      simp only [List.nil_append]
      cases hY : convertLoop none Y <;> simp [Except.map, hY]
    | some s =>
      obtain ⟨clk, cur, acc⟩ := s
      simp only [convertLoop, Except.ok.injEq] at h
      subst h
      simp only [List.nil_append]
      cases Y with
      | nil => simp [convertLoop, Except.map]
      | cons y Y' =>
        rw [convertLoop_some_ne clk cur acc y Y' (hst clk cur acc rfl y (by simp))]
        cases convertLoop none (y :: Y') <;> rfl
  | cons x X' ih =>
    intro st us h hsep hst
    have hsep' : ∀ y ∈ Y, ∀ x' ∈ X', y.clock ≠ x'.clock :=
      fun y hy x' hx' => hsep y hy x' (List.mem_cons_of_mem x hx')
    have hxY : ∀ y ∈ Y, y.clock ≠ x.clock :=
      fun y hy => hsep y hy x (List.mem_cons_self x X')
    -- the fresh (state-`none`) step on `x :: X'`, shared by both state cases
    have key : ∀ us', convertLoop none (x :: X') = .ok us' →
        convertLoop none (x :: (X' ++ Y)) = (convertLoop none Y).map (us' ++ ·) := by
      intro us' h'
      rw [convertLoop] at h' ⊢
      cases hp : x.part with
      | none =>
        rw [hp] at h'
        dsimp only at h' ⊢
        obtain ⟨us'', h1, h2⟩ := exceptMap_eq_ok.mp h'
        rw [ih none us'' h1 hsep' (by intro _ _ _ hc; cases hc)]
        subst h2
        cases convertLoop none Y <;> simp [Except.map]
      | some p =>
        rw [hp] at h'
        match p with
        | 0 =>
          dsimp only at h' ⊢
          obtain ⟨us'', h1, h2⟩ := exceptMap_eq_ok.mp h'
          rw [ih none us'' h1 hsep' (by intro _ _ _ hc; cases hc)]
          subst h2
          cases convertLoop none Y <;> simp [Except.map]
        | 1 =>
          dsimp only at h' ⊢
          exact ih _ us' h' hsep'
            (by intro clk cur acc hc; cases hc; exact hxY)
        | (k+2) =>
          dsimp only at h' ⊢
          exact ih none us' h' hsep' (by intro _ _ _ hc; cases hc)
    cases st with
    | none => exact key us h
    | some s =>
      obtain ⟨clk, cur, acc⟩ := s
      by_cases hclk : x.clock = clk
      · rw [convertLoop] at h
        rw [show (x :: X') ++ Y = x :: (X' ++ Y) from rfl, convertLoop]
        rw [if_pos hclk] at h ⊢
        cases hp : x.part with
        | some p =>
          rw [hp] at h
          dsimp only at h ⊢
          by_cases hpc : p = cur + 1
          · rw [if_pos hpc] at h ⊢
            exact ih _ us h hsep'
              (by intro clk' cur' acc' hc; cases hc; exact hst clk cur acc rfl)
          · rw [if_neg hpc] at h; exact (Except.noConfusion h)
        | none =>
          rw [hp] at h
          exact (Except.noConfusion h)
      · rw [convertLoop_some_ne clk cur acc x X' hclk] at h
        obtain ⟨us', h1, h2⟩ := exceptMap_eq_ok.mp h
        rw [show (x :: X') ++ Y = x :: (X' ++ Y) from rfl,
          convertLoop_some_ne clk cur acc x (X' ++ Y) hclk, key us' h1]
        subst h2
        cases convertLoop none Y <;> simp [Except.map]

theorem totalChunksOf_zero : totalChunksOf 0 = 0 := by
  norm_num [totalChunksOf, MAX_DOCUMENT_SIZE]

theorem totalChunksOf_one {len : Nat} (h1 : 0 < len) (h2 : len ≤ MAX_DOCUMENT_SIZE) :
    totalChunksOf len = 1 := by
  unfold totalChunksOf MAX_DOCUMENT_SIZE at *
  exact Nat.div_eq_of_lt_le (by omega) (by omega)

theorem totalChunksOf_succ {len : Nat} (h : MAX_DOCUMENT_SIZE < len) :
    totalChunksOf len = totalChunksOf (len - MAX_DOCUMENT_SIZE) + 1 := by
  unfold totalChunksOf
  rw [show len + MAX_DOCUMENT_SIZE - 1 =
    (len - MAX_DOCUMENT_SIZE + MAX_DOCUMENT_SIZE - 1) + MAX_DOCUMENT_SIZE by
      unfold MAX_DOCUMENT_SIZE at *; omega]
  rw [Nat.add_div_right _ (by norm_num [MAX_DOCUMENT_SIZE])]

theorem totalChunksOf_pos {len : Nat} (h : 0 < len) : 0 < totalChunksOf len := by
  by_cases h2 : len ≤ MAX_DOCUMENT_SIZE
  · rw [totalChunksOf_one h h2]; omega
  · rw [totalChunksOf_succ (by omega)]; omega

theorem chunkSlice_zero (u : Bytes) : chunkSlice u 0 = u.take MAX_DOCUMENT_SIZE := by
  unfold chunkSlice
  simp only [Nat.zero_mul, List.drop_zero, Nat.zero_add, Nat.sub_zero]
  rcases Nat.le_total u.length MAX_DOCUMENT_SIZE with h | h
  · rw [min_eq_right h, List.take_length, List.take_of_length_le h]
  · rw [min_eq_left h]

theorem chunkSlice_succ (u : Bytes) (i : Nat) (h : MAX_DOCUMENT_SIZE ≤ u.length) :
    chunkSlice u (i + 1) = chunkSlice (u.drop MAX_DOCUMENT_SIZE) i := by
  unfold chunkSlice
  rw [List.drop_drop, List.length_drop]
  rw [show (i + 1) * MAX_DOCUMENT_SIZE = MAX_DOCUMENT_SIZE + i * MAX_DOCUMENT_SIZE by ring]
  rw [show min (MAX_DOCUMENT_SIZE + i * MAX_DOCUMENT_SIZE + MAX_DOCUMENT_SIZE) u.length -
        (MAX_DOCUMENT_SIZE + i * MAX_DOCUMENT_SIZE) =
      min (i * MAX_DOCUMENT_SIZE + MAX_DOCUMENT_SIZE) (u.length - MAX_DOCUMENT_SIZE) -
        i * MAX_DOCUMENT_SIZE from by generalize i * MAX_DOCUMENT_SIZE = a; omega]

theorem flatten_chunkSlices (u : Bytes) :
    ((List.range (totalChunksOf u.length)).map (chunkSlice u)).flatten = u := by
  suffices H : ∀ (n : Nat) (v : Bytes), v.length = n →
      ((List.range (totalChunksOf n)).map (chunkSlice v)).flatten = v by
    exact H u.length u rfl
  intro n
  induction n using Nat.strong_induction_on with
  | _ n ih =>
    intro u hn
    by_cases h0 : n = 0
    · subst h0
      rw [totalChunksOf_zero]
      simpa using (List.eq_nil_of_length_eq_zero hn).symm
    by_cases h1 : n ≤ MAX_DOCUMENT_SIZE
    · rw [totalChunksOf_one (by omega) h1]
      rw [show List.range 1 = [0] from by decide]
      simp only [List.map_cons, List.map_nil, List.flatten_cons,
        List.flatten_nil, List.append_nil]
      rw [chunkSlice_zero]
      exact List.take_of_length_le (by omega)
    · rw [totalChunksOf_succ (by omega), List.range_succ_eq_map, List.map_cons,
        List.map_map, List.flatten_cons]
      have hrw : (List.range (totalChunksOf (n - MAX_DOCUMENT_SIZE))).map
            (chunkSlice u ∘ Nat.succ) =
          (List.range (totalChunksOf (n - MAX_DOCUMENT_SIZE))).map
            (chunkSlice (u.drop MAX_DOCUMENT_SIZE)) := by
        apply List.map_congr_left
        intro i _
        exact chunkSlice_succ u i (by omega)
      rw [hrw, chunkSlice_zero]
      have hlen : (u.drop MAX_DOCUMENT_SIZE).length = n - MAX_DOCUMENT_SIZE := by
        rw [List.length_drop, hn]
      rw [ih (n - MAX_DOCUMENT_SIZE) (by unfold MAX_DOCUMENT_SIZE at *; omega)
        (u.drop MAX_DOCUMENT_SIZE) hlen]
      exact List.take_append_drop MAX_DOCUMENT_SIZE u

theorem convertLoop_partRun (d : String) (c : Nat) :
    ∀ (vs : List Bytes) (p : Nat) (acc : Bytes),
    convertLoop (some (some c, p, acc)) (partRun d c (p + 1) vs) =
      .ok [acc ++ vs.flatten] := by
  intro vs
  induction vs with
  | nil => intro p acc; simp [partRun, convertLoop]
  | cons v vs ih =>
    intro p acc
    rw [partRun, convertLoop]
    simp [updateRecordOf, ih]

theorem range_map_chunkRecordOf (d : String) (c : Nat) (w : Nat → Bytes) :
    ∀ (m s : Nat),
    (List.range m).map (fun j => chunkRecordOf d c (s + 1 + j) (w (s + 1 + j))) =
      partRun d c (s + 2) ((List.range m).map (fun j => w (s + 1 + j))) := by
  intro m
  induction m with
  | zero => intro s; simp [partRun]
  | succ m ih =>
    intro s
    rw [List.range_succ_eq_map, List.map_cons, List.map_cons, List.map_map,
      List.map_map, partRun]
    have e1 : ((fun j => chunkRecordOf d c (s + 1 + j) (w (s + 1 + j))) ∘ Nat.succ) =
        (fun j => chunkRecordOf d c (s + 1 + 1 + j) (w (s + 1 + 1 + j))) := by
      funext j
      simp only [Function.comp]
      rw [show s + 1 + (j + 1) = s + 1 + 1 + j by omega]
    have e2 : ((fun j => w (s + 1 + j)) ∘ Nat.succ) =
        (fun j => w (s + 1 + 1 + j)) := by
      funext j
      simp only [Function.comp]
      rw [show s + 1 + (j + 1) = s + 1 + 1 + j by omega]
    rw [e1, e2, ih (s + 1)]
    rfl

theorem convertLoop_storedChunks (d : String) (c : Nat) (u : Bytes) :
    convertLoop none (storedChunks d c u) = .ok [u] := by
  rw [storedChunks]
  by_cases h : u.length ≤ MAX_DOCUMENT_SIZE
  · rw [if_pos h]
    simp [convertLoop, updateRecordOf, Except.map]
  · rw [if_neg h]
    have hN : totalChunksOf u.length = (totalChunksOf u.length - 1) + 1 := by
      have := @totalChunksOf_pos u.length (by omega)
      omega
    have e1 : ((fun i => chunkRecordOf d c i (chunkSlice u i)) ∘ Nat.succ) =
        (fun j => chunkRecordOf d c (0 + 1 + j) (chunkSlice u (0 + 1 + j))) := by
      funext j
      simp only [Function.comp]
      rw [show (0 : Nat) + 1 + j = j + 1 by omega]
    rw [hN, List.range_succ_eq_map, List.map_cons, List.map_map, e1,
      range_map_chunkRecordOf]
    rw [convertLoop]
    simp only [chunkRecordOf, updateRecordOf, Nat.zero_add]
    have hflat : chunkSlice u 0 ++
        ((List.range (totalChunksOf u.length - 1)).map
          (fun j => chunkSlice u (0 + 1 + j))).flatten = u := by
      have hu := flatten_chunkSlices u
      rw [hN, List.range_succ_eq_map, List.map_cons, List.map_map,
        List.flatten_cons] at hu
      have e2 : (chunkSlice u ∘ Nat.succ) =
          (fun j => chunkSlice u (0 + 1 + j)) := by
        funext j
        simp only [Function.comp]
        rw [show (0 : Nat) + 1 + j = j + 1 by omega]
      rw [e2] at hu
      exact hu
    exact (convertLoop_partRun d c _ 1 (chunkSlice u 0)).trans (by rw [hflat])

theorem sorted_storedChunks (d : String) (c : Nat) (u : Bytes) :
    List.Sorted leFwd (storedChunks d c u) := by
  rw [storedChunks]
  by_cases h : u.length ≤ MAX_DOCUMENT_SIZE
  · rw [if_pos h]
    exact List.sorted_singleton _
  · rw [if_neg h]
    refine List.pairwise_map.mpr ((List.pairwise_lt_range _).imp ?_)
    intro i j hij
    right
    refine ⟨?_, ?_⟩
    · simp only [clockOf, chunkRecordOf, updateRecordOf, Option.getD_some]
    · simp only [partOf, chunkRecordOf, updateRecordOf, Option.getD_some]
      omega

theorem insertionSort_storedChunks (d : String) (c : Nat) (u : Bytes) :
    List.insertionSort leFwd (storedChunks d c u) = storedChunks d c u :=
  (sorted_storedChunks d c u).insertionSort_eq

theorem mem_storedChunks {d : String} {c : Nat} {u : Bytes} {r : StoredDoc}
    (h : r ∈ storedChunks d c u) :
    r.version = "v1" ∧ r.action = some "update" ∧ r.docName = d ∧
      r.clock = some c ∧ r.metaKey = none := by
  rw [storedChunks] at h
  by_cases hb : u.length ≤ MAX_DOCUMENT_SIZE
  · rw [if_pos hb] at h
    simp only [List.mem_singleton] at h
    subst h
    exact ⟨rfl, rfl, rfl, rfl, rfl⟩
  · rw [if_neg hb] at h
    simp only [List.mem_map, List.mem_range] at h
    obtain ⟨i, _, hi⟩ := h
    subst hi
    exact ⟨rfl, rfl, rfl, rfl, rfl⟩

theorem storedChunks_ne_nil (d : String) (c : Nat) (u : Bytes) :
    storedChunks d c u ≠ [] := by
  rw [storedChunks]
  by_cases hb : u.length ≤ MAX_DOCUMENT_SIZE
  · rw [if_pos hb]; simp
  · rw [if_neg hb]
    have := @totalChunksOf_pos u.length (by omega)
    simp only [ne_eq, List.map_eq_nil_iff, List.range_eq_nil]
    omega

theorem length_storedChunks_of_big {d : String} {c : Nat} {u : Bytes}
    (h : MAX_DOCUMENT_SIZE < u.length) :
    (storedChunks d c u).length = totalChunksOf u.length := by
  rw [storedChunks, if_neg (by omega)]
  simp

theorem storedChunks_map_part_of_big {d : String} {c : Nat} {u : Bytes}
    (h : MAX_DOCUMENT_SIZE < u.length) :
    (storedChunks d c u).map (fun r => r.part) =
      (List.range (totalChunksOf u.length)).map (fun i => some (i + 1)) := by
  rw [storedChunks, if_neg (by omega), List.map_map]
  exact List.map_congr_left (fun i _ => rfl)

theorem storedChunks_map_value_of_big {d : String} {c : Nat} {u : Bytes}
    (h : MAX_DOCUMENT_SIZE < u.length) :
    (storedChunks d c u).map (fun r => r.value) =
      (List.range (totalChunksOf u.length)).map (chunkSlice u) := by
  rw [storedChunks, if_neg (by omega), List.map_map]
  exact List.map_congr_left (fun i _ => rfl)

/-! ## Query characterizations -/

theorem matches_updateKey_none_iff {d : String} {r : StoredDoc} :
    matchesQuery (createDocumentUpdateKey d none) r = true ↔
      r.version = "v1" ∧ r.action = some "update" ∧ r.docName = d := by
  simp [matchesQuery, createDocumentUpdateKey, optMatches, clockMatches,
    and_assoc]

theorem matches_updateKey_some_iff {d : String} {c : Nat} {r : StoredDoc} :
    matchesQuery (createDocumentUpdateKey d (some c)) r = true ↔
      r.version = "v1" ∧ r.action = some "update" ∧ r.docName = d ∧
        r.clock = some c := by
  simp [matchesQuery, createDocumentUpdateKey, optMatches, clockMatches,
    and_assoc]

theorem matches_chunkKey_iff {d : String} {c p : Nat} {r : StoredDoc} :
    matchesQuery { createDocumentUpdateKey d (some c) with part := some p } r = true ↔
      r.version = "v1" ∧ r.action = some "update" ∧ r.docName = d ∧
        r.clock = some c ∧ r.part = some p := by
  simp [matchesQuery, createDocumentUpdateKey, optMatches, clockMatches,
    and_assoc]

theorem matches_svKey_iff {d : String} {r : StoredDoc} :
    matchesQuery (createDocumentStateVectorKey d) r = true ↔
      r.version = "v1_sv" ∧ r.docName = d := by
  simp [matchesQuery, createDocumentStateVectorKey, optMatches, clockMatches,
    and_assoc]

theorem matches_metaKey_iff {d k : String} {r : StoredDoc} :
    matchesQuery (createDocumentMetaKey d k) r = true ↔
      r.version = "v1" ∧ r.docName = d ∧ r.metaKey = some ("meta_" ++ k) := by
  simp [matchesQuery, createDocumentMetaKey, optMatches, clockMatches,
    and_assoc]

theorem matches_range_iff {d : String} {lo hi : Nat} {r : StoredDoc} :
    matchesQuery { docName := some d, clock := .range lo hi } r = true ↔
      r.docName = d ∧ ∃ n, r.clock = some n ∧ lo ≤ n ∧ n < hi := by
  simp only [matchesQuery, optMatches, clockMatches, Bool.and_eq_true,
    decide_eq_true_eq]
  cases hc : r.clock <;> simp [hc, and_assoc]

theorem matches_curQuery_iff {d : String} {r : StoredDoc} :
    matchesQuery
        { createDocumentUpdateKey d (some 0) with clock := .range 0 BITS32 } r = true ↔
      r.version = "v1" ∧ r.action = some "update" ∧ r.docName = d ∧
        ∃ n, r.clock = some n ∧ n < BITS32 := by
  simp only [matchesQuery, createDocumentUpdateKey, optMatches, clockMatches,
    Bool.and_eq_true, decide_eq_true_eq]
  cases hc : r.clock <;> simp [hc, and_assoc]

/-- No query looks at the `value` field. -/
theorem matchesQuery_set_value (q : Query) (r : StoredDoc) (v : Bytes) :
    matchesQuery q { r with value := v } = matchesQuery q r := rfl

/-! ## Effects of the adapter operations on the record views -/

theorem mem_setValueFirst {p : StoredDoc → Bool} {v : Bytes} :
    ∀ {db : DB} {r : StoredDoc}, r ∈ setValueFirst p v db →
      r ∈ db ∨ ∃ r₀ ∈ db, r = { r₀ with value := v } := by
  intro db
  induction db with
  | nil => intro r h; simp [setValueFirst] at h
  | cons x xs ih =>
    intro r h
    rw [setValueFirst] at h
    by_cases hx : p x
    · rw [if_pos hx] at h
      rcases List.mem_cons.mp h with h1 | h1
      · exact Or.inr ⟨x, List.mem_cons_self x xs, h1⟩
      · exact Or.inl (List.mem_cons_of_mem x h1)
    · rw [if_neg hx] at h
      rcases List.mem_cons.mp h with h1 | h1
      · exact Or.inl (h1 ▸ List.mem_cons_self x xs)
      · rcases ih h1 with h2 | ⟨r₀, hr₀, he⟩
        · exact Or.inl (List.mem_cons_of_mem x h2)
        · exact Or.inr ⟨r₀, List.mem_cons_of_mem x hr₀, he⟩

theorem mem_upsertRecord {q : Query} {v : Bytes} {db : DB} {r : StoredDoc}
    (h : r ∈ upsertRecord q v db) :
    r ∈ db ∨ r = recordOfQuery q v ∨ ∃ r₀ ∈ db, r = { r₀ with value := v } := by
  rw [upsertRecord] at h
  split at h
  · rcases mem_setValueFirst h with h1 | h1
    · exact Or.inl h1
    · exact Or.inr (Or.inr h1)
  · rcases List.mem_append.mp h with h1 | h1
    · exact Or.inl h1
    · exact Or.inr (Or.inl (List.mem_singleton.mp h1))

theorem filter_setValueFirst_of_disjoint {p P : StoredDoc → Bool} {v : Bytes}
    (hP : ∀ r, P { r with value := v } = P r) :
    ∀ db : DB, (∀ r ∈ db, p r = true → P r = false) →
      (setValueFirst p v db).filter P = db.filter P := by
  intro db
  induction db with
  | nil => intro _; rfl
  | cons x xs ih =>
    intro hdis
    rw [setValueFirst]
    by_cases hx : p x
    · rw [if_pos hx]
      have hPx : P x = false := hdis x (List.mem_cons_self x xs) hx
      rw [List.filter_cons, List.filter_cons, hP x, hPx]
      simp
    · rw [if_neg hx, List.filter_cons, List.filter_cons,
        ih (fun r hr => hdis r (List.mem_cons_of_mem x hr))]

theorem filter_upsertRecord_of_disjoint {q : Query} {P : StoredDoc → Bool}
    {v : Bytes} {db : DB}
    (hP : ∀ r, P { r with value := v } = P r)
    (hdis : ∀ r ∈ db, matchesQuery q r = true → P r = false)
    (hnew : P (recordOfQuery q v) = false) :
    (upsertRecord q v db).filter P = db.filter P := by
  rw [upsertRecord]
  split
  · exact filter_setValueFirst_of_disjoint hP db hdis
  · rw [List.filter_append]
    simp [hnew]

theorem upsertRecord_of_no_match {q : Query} {v : Bytes} {db : DB}
    (h : ∀ r ∈ db, matchesQuery q r = false) :
    upsertRecord q v db = db ++ [recordOfQuery q v] := by
  rw [upsertRecord, if_neg]
  simp only [List.any_eq_true, not_exists, not_and]
  intro r hr hm
  rw [h r hr] at hm
  cases hm

theorem filter_setValueFirst_head {p : StoredDoc → Bool} {v : Bytes}
    (hp : ∀ r, p { r with value := v } = p r) :
    ∀ {db : DB} {r₀ : StoredDoc}, (db.filter p).head? = some r₀ →
      ((setValueFirst p v db).filter p).head? = some { r₀ with value := v } := by
  intro db
  induction db with
  | nil => intro r₀ h; simp at h
  | cons x xs ih =>
    intro r₀ h
    rw [setValueFirst]
    by_cases hx : p x
    · rw [List.filter_cons, if_pos hx] at h
      simp only [List.head?_cons, Option.some.injEq] at h
      subst h
      rw [if_pos hx, List.filter_cons, hp x, if_pos hx]
      rfl
    · rw [List.filter_cons, if_neg hx] at h
      rw [if_neg hx, List.filter_cons, if_neg hx]
      exact ih h

/-- After `writeStateVector`-style upsert with the state-vector key, the
first (and for well-formed stores only) state-vector record of `d` holds
the new value. -/
theorem svValueOf_upsert (d : String) (v : Bytes) (db : DB) :
    svValueOf (upsertRecord (createDocumentStateVectorKey d) v db) d = some v := by
  rw [svValueOf, upsertRecord, adapterGet]
  split
  · rename_i hany
    obtain ⟨r, hr, hm⟩ := List.any_eq_true.mp hany
    have hhead : ∃ r₀, (db.filter
        (matchesQuery (createDocumentStateVectorKey d))).head? = some r₀ := by
      cases hf : (db.filter (matchesQuery (createDocumentStateVectorKey d))).head? with
      | none =>
        rw [List.head?_eq_none_iff] at hf
        rw [List.filter_eq_nil_iff] at hf
        exact absurd hm (by simp [hf r hr])
      | some r₀ => exact ⟨r₀, rfl⟩
    obtain ⟨r₀, hr₀⟩ := hhead
    rw [filter_setValueFirst_head (fun r => matchesQuery_set_value _ r v) hr₀]
    rfl
  · rw [List.filter_append]
    rename_i hany
    have hnil : db.filter (matchesQuery (createDocumentStateVectorKey d)) = [] := by
      rw [List.filter_eq_nil_iff]
      intro r hr
      simp only [List.any_eq_true, not_exists, not_and] at hany
      simp [hany r hr]
    rw [hnil]
    have : matchesQuery (createDocumentStateVectorKey d)
        (recordOfQuery (createDocumentStateVectorKey d) v) = true := by
      rw [matches_svKey_iff]
      exact ⟨rfl, rfl⟩
    rw [List.nil_append, List.filter_cons, if_pos this, List.filter_nil]
    rfl

theorem adapterDel_filter (db : DB) (q : Query) (P : StoredDoc → Bool) :
    (adapterDel db q).filter P = db.filter (fun r => P r && !matchesQuery q r) := by
  rw [adapterDel, List.filter_filter]

theorem mem_adapterDel {db : DB} {q : Query} {r : StoredDoc}
    (h : r ∈ adapterDel db q) : r ∈ db :=
  List.mem_of_mem_filter h

/-! ## Unpacking the well-formedness invariant -/

theorem bool_eq_of_iff {a b : Bool} (h : a = true ↔ b = true) : a = b := by
  cases a <;> cases b <;> simp_all

theorem wfRecord_update_clock {bound : Nat} {d : String} {r : StoredDoc}
    (hw : wfRecord bound d r = true) (h1 : r.docName = d) (h2 : r.version = "v1")
    (h3 : r.action = some "update") :
    ∃ c, r.clock = some c ∧ c < bound ∧ r.metaKey = none := by
  rw [wfRecord, if_pos (by simp [h1])] at hw
  simp only [Bool.or_eq_true, Bool.and_eq_true, beq_iff_eq] at hw
  rcases hw with (⟨⟨⟨_, _⟩, hmk⟩, hc⟩ | ⟨⟨⟨hv, _⟩, _⟩, _⟩) | ⟨⟨⟨_, ha⟩, _⟩, _⟩
  · cases hcl : r.clock with
    | none => rw [hcl] at hc; cases hc
    | some c =>
      rw [hcl] at hc
      exact ⟨c, rfl, by simpa using hc, hmk⟩
  · simp [h2] at hv
  · simp [h3] at ha

theorem wfRecord_sv {bound : Nat} {d : String} {r : StoredDoc}
    (hw : wfRecord bound d r = true) (h1 : r.docName = d) (h2 : r.version = "v1_sv") :
    r.action = none ∧ r.clock = none ∧ r.metaKey = none := by
  rw [wfRecord, if_pos (by simp [h1])] at hw
  simp only [Bool.or_eq_true, Bool.and_eq_true, beq_iff_eq] at hw
  rcases hw with (⟨⟨⟨hv, _⟩, _⟩, _⟩ | ⟨⟨⟨_, ha⟩, hc⟩, hm⟩) | ⟨⟨⟨hv, _⟩, _⟩, _⟩
  · simp [h2] at hv
  · exact ⟨ha, hc, hm⟩
  · simp [h2] at hv

theorem wfRecord_clocked {bound : Nat} {d : String} {r : StoredDoc} {n : Nat}
    (hw : wfRecord bound d r = true) (h1 : r.docName = d) (h2 : r.clock = some n) :
    r.version = "v1" ∧ r.action = some "update" ∧ r.metaKey = none ∧ n < bound := by
  rw [wfRecord, if_pos (by simp [h1])] at hw
  simp only [Bool.or_eq_true, Bool.and_eq_true, beq_iff_eq] at hw
  rcases hw with (⟨⟨⟨hv, ha⟩, hmk⟩, hc⟩ | ⟨⟨⟨_, _⟩, hc⟩, _⟩) | ⟨⟨⟨_, _⟩, hc⟩, _⟩
  · rw [h2] at hc
    exact ⟨hv, ha, hmk, by simpa using hc⟩
  · simp [h2] at hc
  · simp [h2] at hc

theorem wfRecord_meta {bound : Nat} {d : String} {r : StoredDoc}
    (hw : wfRecord bound d r = true) (h1 : r.docName = d) (h2 : r.metaKey.isSome) :
    r.version = "v1" ∧ r.action = none ∧ r.clock = none := by
  rw [wfRecord, if_pos (by simp [h1])] at hw
  simp only [Bool.or_eq_true, Bool.and_eq_true, beq_iff_eq] at hw
  rcases hw with (⟨⟨⟨_, _⟩, hmk⟩, _⟩ | ⟨⟨⟨_, _⟩, _⟩, hmk⟩) | ⟨⟨⟨hv, ha⟩, hc⟩, _⟩
  · simp [hmk] at h2
  · simp [hmk] at h2
  · exact ⟨hv, ha, hc⟩

/-! ## `getCurrentUpdateClock` -/

theorem filter_curQuery_eq {bound : Nat} {db : DB} {d : String}
    (hb : bound ≤ BITS32) (hwf : WFDoc bound db d) :
    db.filter (matchesQuery
        { createDocumentUpdateKey d (some 0) with clock := .range 0 BITS32 }) =
      updateRecords db d := by
  rw [updateRecords]
  apply List.filter_congr
  intro r hr
  apply bool_eq_of_iff
  rw [matches_curQuery_iff, matches_updateKey_none_iff]
  constructor
  · rintro ⟨h1, h2, h3, -⟩
    exact ⟨h1, h2, h3⟩
  · rintro ⟨h1, h2, h3⟩
    obtain ⟨c, hc, hcb, -⟩ := wfRecord_update_clock (hwf r hr) h3 h1 h2
    exact ⟨h1, h2, h3, c, hc, by omega⟩

theorem getCurrentUpdateClock_of_nil {bound : Nat} {db : DB} {d : String}
    (hb : bound ≤ BITS32) (hwf : WFDoc bound db d)
    (h : updateRecords db d = []) : getCurrentUpdateClock db d = -1 := by
  rw [getCurrentUpdateClock, readAsCursor]
  rw [filter_curQuery_eq hb hwf, h]
  rfl

theorem getCurrentUpdateClock_spec {bound : Nat} {db : DB} {d : String}
    (hb : bound ≤ BITS32) (hwf : WFDoc bound db d)
    (hne : updateRecords db d ≠ []) :
    ∃ m : Nat, getCurrentUpdateClock db d = (m : Int) ∧
      (∃ r ∈ updateRecords db d, r.clock = some m) ∧
      (∀ r ∈ updateRecords db d, ∀ c, r.clock = some c → c ≤ m) := by
  rw [getCurrentUpdateClock, readAsCursor]
  rw [filter_curQuery_eq hb hwf]
  simp only [if_pos rfl, if_neg (by omega : ¬(1 : Nat) = 0)]
  cases hs : List.insertionSort leRev (updateRecords db d) with
  | nil =>
    exfalso
    have hlen := (List.perm_insertionSort leRev (updateRecords db d)).length_eq
    rw [hs] at hlen
    exact hne (List.eq_nil_of_length_eq_zero hlen.symm)
  | cons rmax t =>
    have hmem : ∀ x ∈ updateRecords db d, x = rmax ∨ x ∈ t := by
      intro x hx
      have : x ∈ rmax :: t := by
        rw [← hs]
        exact (List.perm_insertionSort leRev (updateRecords db d)).symm.mem_iff.mp hx
      simpa using this
    have hrmax : rmax ∈ updateRecords db d := by
      have : rmax ∈ List.insertionSort leRev (updateRecords db d) := by
        rw [hs]; exact List.mem_cons_self rmax t
      exact (List.perm_insertionSort leRev (updateRecords db d)).mem_iff.mp this
    have hsorted : ∀ x ∈ t, leRev rmax x := by
      have := List.sorted_insertionSort leRev (updateRecords db d)
      rw [hs] at this
      exact (List.pairwise_cons.mp this).1
    have hmatch := List.of_mem_filter hrmax
    rw [matches_updateKey_none_iff] at hmatch
    obtain ⟨cm, hcm, -, -⟩ :=
      wfRecord_update_clock (hwf rmax (List.mem_of_mem_filter hrmax))
        hmatch.2.2 hmatch.1 hmatch.2.1
    refine ⟨cm, ?_, ⟨rmax, hrmax, hcm⟩, ?_⟩
    · simp [List.take, clockOf, hcm]
    · intro x hx c hc
      rcases hmem x hx with h1 | h1
      · subst h1
        rw [hc] at hcm
        simp at hcm
        omega
      · have := hsorted x h1
        rw [leRev, clockOf, clockOf, hcm, hc] at this
        simp at this
        omega

theorem bool_eq_false_of_not {b : Bool} (h : ¬b = true) : b = false := by
  cases b <;> simp_all

theorem matches_updateKey_some_imp {d : String} {c : Nat} {r : StoredDoc}
    (h : matchesQuery (createDocumentUpdateKey d (some c)) r = true) :
    matchesQuery (createDocumentUpdateKey d none) r = true := by
  rw [matches_updateKey_some_iff] at h
  exact matches_updateKey_none_iff.mpr ⟨h.1, h.2.1, h.2.2.1⟩

theorem matches_chunkKey_imp {d : String} {c p : Nat} {r : StoredDoc}
    (h : matchesQuery { createDocumentUpdateKey d (some c) with part := some p } r = true) :
    matchesQuery (createDocumentUpdateKey d (some c)) r = true := by
  rw [matches_chunkKey_iff] at h
  exact matches_updateKey_some_iff.mpr ⟨h.1, h.2.1, h.2.2.1, h.2.2.2.1⟩

theorem no_match_of_updateRecords {db2 : DB} {d : String} {n : Nat}
    (h : ∀ r ∈ updateRecords db2 d, ∀ c, r.clock = some c → c < n) :
    ∀ r ∈ db2, matchesQuery (createDocumentUpdateKey d (some n)) r = false := by
  intro r hr
  apply bool_eq_false_of_not
  rw [matches_updateKey_some_iff]
  rintro ⟨h1, h2, h3, h4⟩
  have hmem : r ∈ updateRecords db2 d :=
    List.mem_filter.mpr ⟨hr, matches_updateKey_none_iff.mpr ⟨h1, h2, h3⟩⟩
  exact absurd (h r hmem n h4) (by omega)

theorem updateRecords_clock_lt {bound : Nat} {db : DB} {d : String}
    (hb : bound ≤ BITS32) (hwf : WFDoc bound db d) :
    ∀ r ∈ updateRecords db d, ∀ c, r.clock = some c →
      c < (getCurrentUpdateClock db d + 1).toNat := by
  intro r hr c hc
  have hne : updateRecords db d ≠ [] := by
    intro hnil
    rw [hnil] at hr
    cases hr
  obtain ⟨m, hm, -, hmax⟩ := getCurrentUpdateClock_spec hb hwf hne
  have := hmax r hr c hc
  rw [hm]
  omega

theorem adapterPut_updateKey (db : DB) (d : String) (c : Nat) (v : Bytes)
    (hd : d ≠ "") :
    adapterPut db (createDocumentUpdateKey d (some c)) v =
      .ok (upsertRecord (createDocumentUpdateKey d (some c)) v db) := by
  simp [adapterPut, createDocumentUpdateKey, hd]

theorem adapterPut_chunkKey (db : DB) (d : String) (c p : Nat) (v : Bytes)
    (hd : d ≠ "") :
    adapterPut db { createDocumentUpdateKey d (some c) with part := some p } v =
      .ok (upsertRecord { createDocumentUpdateKey d (some c) with part := some p } v db) := by
  simp [adapterPut, createDocumentUpdateKey, hd]

theorem adapterPut_svKey (db : DB) (d : String) (v : Bytes) (hd : d ≠ "") :
    adapterPut db (createDocumentStateVectorKey d) v =
      .ok (upsertRecord (createDocumentStateVectorKey d) v db) := by
  simp [adapterPut, createDocumentStateVectorKey, hd]

theorem adapterPut_metaKey (db : DB) (d k : String) (v : Bytes) (hd : d ≠ "") :
    adapterPut db (createDocumentMetaKey d k) v =
      .ok (upsertRecord (createDocumentMetaKey d k) v db) := by
  simp [adapterPut, createDocumentMetaKey, hd]

theorem putChunksAux_spec {d : String} {n : Nat} {u : Bytes} (hd : d ≠ "") :
    ∀ (is : List Nat) (db : DB),
    (∀ i ∈ is, ∀ r ∈ db,
      matchesQuery { createDocumentUpdateKey d (some n) with part := some (i + 1) } r = false) →
    is.Pairwise (· ≠ ·) →
    putChunksAux d n u db is =
      .ok (db ++ is.map (fun i => chunkRecordOf d n i (chunkSlice u i))) := by
  intro is
  induction is with
  | nil => intro db _ _; simp [putChunksAux]
  | cons i is ih =>
    intro db hfresh hnodup
    rw [putChunksAux, adapterPut_chunkKey db d n (i + 1) (chunkSlice u i) hd]
    rw [upsertRecord_of_no_match (hfresh i (List.mem_cons_self i is))]
    have hfresh' : ∀ j ∈ is, ∀ r ∈ db ++
        [recordOfQuery { createDocumentUpdateKey d (some n) with part := some (i + 1) }
          (chunkSlice u i)],
        matchesQuery { createDocumentUpdateKey d (some n) with part := some (j + 1) } r
          = false := by
      intro j hj r hr
      rcases List.mem_append.mp hr with hr1 | hr1
      · exact hfresh j (List.mem_cons_of_mem i hj) r hr1
      · rw [List.mem_singleton.mp hr1]
        apply bool_eq_false_of_not
        rw [matches_chunkKey_iff]
        rintro ⟨-, -, -, -, hp⟩
        have hij : i = j := by
          have : some (i + 1) = some (j + 1) := hp
          simpa using this
        exact (List.pairwise_cons.mp hnodup).1 j hj hij
    dsimp only
    rw [ih _ hfresh' (List.pairwise_cons.mp hnodup).2]
    rw [List.append_assoc]
    rfl

theorem ok_bind {ε α β : Type} (a : α) (f : α → Except ε β) :
    ((Except.ok a : Except ε α) >>= f) = f a := rfl

theorem filter_append_all {db0 L : DB} {p : StoredDoc → Bool}
    (h : ∀ r ∈ L, p r = true) : (db0 ++ L).filter p = db0.filter p ++ L := by
  rw [List.filter_append, List.filter_eq_self.mpr h]

theorem filter_append_none {db0 L : DB} {p : StoredDoc → Bool}
    (h : ∀ r ∈ L, p r = false) : (db0 ++ L).filter p = db0.filter p := by
  rw [List.filter_append]
  have hL : L.filter p = [] := List.filter_eq_nil_iff.mpr (fun r hr => by simp [h r hr])
  rw [hL, List.append_nil]

theorem storedChunks_matches_updateKey {d : String} {n : Nat} {u : Bytes} :
    ∀ r ∈ storedChunks d n u,
      matchesQuery (createDocumentUpdateKey d none) r = true := by
  intro r hr
  obtain ⟨h1, h2, h3, -, -⟩ := mem_storedChunks hr
  exact matches_updateKey_none_iff.mpr ⟨h1, h2, h3⟩

theorem storedChunks_not_sv {d d' : String} {n : Nat} {u : Bytes} :
    ∀ r ∈ storedChunks d n u,
      matchesQuery (createDocumentStateVectorKey d') r = false := by
  intro r hr
  obtain ⟨h1, -, -, -, -⟩ := mem_storedChunks hr
  apply bool_eq_false_of_not
  rw [matches_svKey_iff]
  rintro ⟨hv, -⟩
  rw [h1] at hv
  simp at hv

theorem svValueOf_append {db0 L : DB} {d : String}
    (h : ∀ r ∈ L, matchesQuery (createDocumentStateVectorKey d) r = false) :
    svValueOf (db0 ++ L) d = svValueOf db0 d := by
  rw [svValueOf, svValueOf, adapterGet, adapterGet, filter_append_none h]

/-- The effect of `storeUpdate`: it returns the incremented clock, appends
exactly the chunk records for `u` at that clock, writes the clock-0 state
vector exactly when the document had no update records, and touches
nothing else. -/
theorem storeUpdate_spec {bound : Nat} {db : DB} {d : String} (M : YModel) (u : Bytes)
    (hb : bound ≤ BITS32) (hwf : WFDoc bound db d) (hd : d ≠ "") :
    ∃ db' : DB,
      storeUpdate M db d u = .ok (db', (getCurrentUpdateClock db d + 1).toNat) ∧
      updateRecords db' d = updateRecords db d ++
        storedChunks d (getCurrentUpdateClock db d + 1).toNat u ∧
      svValueOf db' d = (if getCurrentUpdateClock db d = -1
        then some (encodeStateVectorValue 0 (M.merge [u]).2) else svValueOf db d) ∧
      (∀ P : StoredDoc → Bool,
        (∀ r v', P { r with value := v' } = P r) →
        (∀ r ∈ db, matchesQuery (createDocumentStateVectorKey d) r = true →
          P r = false) →
        P (recordOfQuery (createDocumentStateVectorKey d)
          (encodeStateVectorValue 0 (M.merge [u]).2)) = false →
        (∀ r ∈ storedChunks d (getCurrentUpdateClock db d + 1).toNat u, P r = false) →
        db'.filter P = db.filter P) ∧
      (∀ r ∈ db', r ∈ db ∨
        r ∈ storedChunks d (getCurrentUpdateClock db d + 1).toNat u ∨
        r = recordOfQuery (createDocumentStateVectorKey d)
          (encodeStateVectorValue 0 (M.merge [u]).2) ∨
        ∃ r₀ ∈ db,
          r = { r₀ with value := encodeStateVectorValue 0 (M.merge [u]).2 }) := by
  have hchunkMatch := @storedChunks_matches_updateKey d
    (getCurrentUpdateClock db d + 1).toNat u
  have hchunkSv := @storedChunks_not_sv d d (getCurrentUpdateClock db d + 1).toNat u
  by_cases hcur : getCurrentUpdateClock db d = -1
  · -- first contact: the state vector is written first
    have hnil : updateRecords db d = [] := by
      by_contra hne
      obtain ⟨m, hm, -, -⟩ := getCurrentUpdateClock_spec hb hwf hne
      rw [hm] at hcur
      exact absurd hcur (by omega)
    have hfresh1 : ∀ r ∈ upsertRecord (createDocumentStateVectorKey d)
        (encodeStateVectorValue 0 (M.merge [u]).2) db,
        matchesQuery (createDocumentUpdateKey d
          (some (getCurrentUpdateClock db d + 1).toNat)) r = false := by
      apply no_match_of_updateRecords
      rw [show updateRecords (upsertRecord (createDocumentStateVectorKey d)
          (encodeStateVectorValue 0 (M.merge [u]).2) db) d = updateRecords db d from
        filter_upsertRecord_of_disjoint
          (fun r => matchesQuery_set_value _ r _)
          (fun r _ hm => by
            apply bool_eq_false_of_not
            rw [matches_updateKey_none_iff]
            rw [matches_svKey_iff] at hm
            rintro ⟨hv, -, -⟩
            rw [hm.1] at hv
            simp at hv)
          rfl]
      rw [hnil]
      intro r hr
      cases hr
    refine ⟨upsertRecord (createDocumentStateVectorKey d)
        (encodeStateVectorValue 0 (M.merge [u]).2) db ++
        storedChunks d (getCurrentUpdateClock db d + 1).toNat u, ?_, ?_, ?_, ?_, ?_⟩
    · rw [storeUpdate, if_pos hcur, writeStateVector, adapterPut_svKey db d _ hd]
      rw [ok_bind]
      dsimp only
      by_cases hlen : u.length ≤ MAX_DOCUMENT_SIZE
      · rw [if_pos hlen, adapterPut_updateKey _ d _ u hd,
          upsertRecord_of_no_match hfresh1, ok_bind]
        rw [storedChunks, if_pos hlen]
        rfl
      · rw [if_neg hlen,
          putChunksAux_spec hd (List.range (totalChunksOf u.length)) _
            (fun i _ r hr => by
              apply bool_eq_false_of_not
              intro hm
              have h2 := matches_chunkKey_imp hm
              rw [hfresh1 r hr] at h2
              cases h2)
            ((List.pairwise_lt_range _).imp Nat.ne_of_lt),
          ok_bind]
        rw [storedChunks, if_neg hlen]
        rfl
    · rw [updateRecords, filter_append_all hchunkMatch]
      rw [show (upsertRecord (createDocumentStateVectorKey d)
          (encodeStateVectorValue 0 (M.merge [u]).2) db).filter
            (matchesQuery (createDocumentUpdateKey d none)) = updateRecords db d from
        filter_upsertRecord_of_disjoint
          (fun r => matchesQuery_set_value _ r _)
          (fun r _ hm => by
            apply bool_eq_false_of_not
            rw [matches_updateKey_none_iff]
            rw [matches_svKey_iff] at hm
            rintro ⟨hv, -, -⟩
            rw [hm.1] at hv
            simp at hv)
          rfl]
    · rw [if_pos hcur, svValueOf_append hchunkSv, svValueOf_upsert]
    · intro P hPval hPsv hPnew hPchunks
      rw [filter_append_none hPchunks]
      exact filter_upsertRecord_of_disjoint (fun r => hPval r _) hPsv hPnew
    · intro r hr
      rcases List.mem_append.mp hr with h1 | h1
      · rcases mem_upsertRecord h1 with h2 | h2 | h2
        · exact Or.inl h2
        · exact Or.inr (Or.inr (Or.inl h2))
        · exact Or.inr (Or.inr (Or.inr h2))
      · exact Or.inr (Or.inl h1)
  · -- the document already has updates: no state-vector write
    have hfresh1 : ∀ r ∈ db, matchesQuery (createDocumentUpdateKey d
        (some (getCurrentUpdateClock db d + 1).toNat)) r = false :=
      no_match_of_updateRecords (updateRecords_clock_lt hb hwf)
    refine ⟨db ++ storedChunks d (getCurrentUpdateClock db d + 1).toNat u,
      ?_, ?_, ?_, ?_, ?_⟩
    · rw [storeUpdate, if_neg hcur, ok_bind]
      dsimp only
      by_cases hlen : u.length ≤ MAX_DOCUMENT_SIZE
      · rw [if_pos hlen, adapterPut_updateKey _ d _ u hd,
          upsertRecord_of_no_match hfresh1, ok_bind]
        rw [storedChunks, if_pos hlen]
        rfl
      · rw [if_neg hlen,
          putChunksAux_spec hd (List.range (totalChunksOf u.length)) _
            (fun i _ r hr => by
              apply bool_eq_false_of_not
              intro hm
              have h2 := matches_chunkKey_imp hm
              rw [hfresh1 r hr] at h2
              cases h2)
            ((List.pairwise_lt_range _).imp Nat.ne_of_lt),
          ok_bind]
        rw [storedChunks, if_neg hlen]
        rfl
    · rw [updateRecords, filter_append_all hchunkMatch]
      rfl
    · rw [if_neg hcur, svValueOf_append hchunkSv]
    · intro P hPval hPsv hPnew hPchunks
      exact filter_append_none hPchunks
    · intro r hr
      rcases List.mem_append.mp hr with h1 | h1
      · exact Or.inl h1
      · exact Or.inr (Or.inl h1)

/-! ## Shape equivalence: every predicate this development filters on
ignores the `value` field -/

theorem sameShape_refl (a : StoredDoc) : sameShape a a :=
  ⟨rfl, rfl, rfl, rfl, rfl, rfl⟩

theorem sameShape_set_value (a : StoredDoc) (v : Bytes) :
    sameShape { a with value := v } a :=
  ⟨rfl, rfl, rfl, rfl, rfl, rfl⟩

theorem sameShape_trans {a b c : StoredDoc} (h1 : sameShape a b)
    (h2 : sameShape b c) : sameShape a c := by
  obtain ⟨x1, x2, x3, x4, x5, x6⟩ := h1
  obtain ⟨y1, y2, y3, y4, y5, y6⟩ := h2
  exact ⟨x1.trans y1, x2.trans y2, x3.trans y3, x4.trans y4, x5.trans y5, x6.trans y6⟩

theorem matchesQuery_of_sameShape {a b : StoredDoc} (q : Query)
    (h : sameShape a b) : matchesQuery q a = matchesQuery q b := by
  obtain ⟨h1, h2, h3, h4, h5, h6⟩ := h
  rw [matchesQuery, matchesQuery, h1, h2, h3, h4, h5, h6]

theorem wfRecord_of_sameShape {a b : StoredDoc} (bound : Nat) (d : String)
    (h : sameShape a b) : wfRecord bound d a = wfRecord bound d b := by
  obtain ⟨h1, h2, h3, h4, h5, h6⟩ := h
  rw [wfRecord, wfRecord, h1, h2, h3, h4, h6]

theorem wfRecord_of_chunk {bound : Nat} {d : String} {n : Nat} {u : Bytes}
    {r : StoredDoc} (h : r ∈ storedChunks d n u) (hn : n < bound) :
    wfRecord bound d r = true := by
  obtain ⟨h1, h2, h3, h4, h5⟩ := mem_storedChunks h
  rw [wfRecord, if_pos (by simp [h3]), h1, h2, h4, h5]
  simp [hn]

theorem wfRecord_svNew (bound : Nat) (d : String) (v : Bytes) :
    wfRecord bound d (recordOfQuery (createDocumentStateVectorKey d) v) = true := by
  rw [wfRecord]
  simp [recordOfQuery, createDocumentStateVectorKey]

/-! ## Reading back after a store -/

theorem getMongoUpdates_eq (db : DB) (d : String) :
    getMongoUpdates db d =
      convertLoop none (List.insertionSort leFwd (updateRecords db d)) := rfl

theorem updateRecords_have_clock {bound : Nat} {db : DB} {d : String}
    (hwf : WFDoc bound db d) :
    ∀ r ∈ updateRecords db d, ∃ c, r.clock = some c ∧ c < bound := by
  intro r hr
  have hm := List.of_mem_filter hr
  rw [matches_updateKey_none_iff] at hm
  obtain ⟨c, hc, hcb, -⟩ := wfRecord_update_clock
    (hwf r (List.mem_of_mem_filter hr)) hm.2.2 hm.1 hm.2.1
  exact ⟨c, hc, hcb⟩

/-- Reassembling after the chunk block for a fresh clock was appended
yields the old updates plus the new one. -/
theorem getMongoUpdates_append {bound : Nat} {db db2 : DB} {d : String}
    {us : List Bytes} {n : Nat} {u : Bytes} (hwf : WFDoc bound db d)
    (heq : updateRecords db2 d = updateRecords db d ++ storedChunks d n u)
    (hok : getMongoUpdates db d = .ok us)
    (hlt : ∀ r ∈ updateRecords db d, ∀ c, r.clock = some c → c < n) :
    getMongoUpdates db2 d = .ok (us ++ [u]) := by
  rw [getMongoUpdates_eq] at hok ⊢
  rw [heq]
  have hsep : ∀ a ∈ updateRecords db d, ∀ b ∈ storedChunks d n u, leFwd a b := by
    intro a ha b hb
    obtain ⟨c, hc, -⟩ := updateRecords_have_clock hwf a ha
    have hcn := hlt a ha c hc
    obtain ⟨-, -, -, hbc, -⟩ := mem_storedChunks hb
    left
    rw [clockOf, clockOf, hc, hbc]
    simpa using hcn
  rw [insertionSort_append_of _ _ hsep, insertionSort_storedChunks]
  rw [convertLoop_append (storedChunks d n u) _ none us hok
    (by
      intro y hy x hx
      obtain ⟨-, -, -, hyc, -⟩ := mem_storedChunks hy
      obtain ⟨c, hc, -⟩ := updateRecords_have_clock hwf x
        ((List.perm_insertionSort leFwd (updateRecords db d)).mem_iff.mp hx)
      have := hlt x ((List.perm_insertionSort leFwd (updateRecords db d)).mem_iff.mp hx) c hc
      rw [hyc, hc]
      intro hcontra
      have : n = c := by simpa using hcontra
      omega)
    (by intro _ _ _ hc; cases hc)]
  rw [convertLoop_storedChunks]
  rfl

/-! ## The effect of a flush -/

theorem matches_range_of_clock_none {d : String} {lo hi : Nat} {r : StoredDoc}
    (h : r.clock = none) :
    matchesQuery { docName := some d, clock := .range lo hi } r = false := by
  apply bool_eq_false_of_not
  rw [matches_range_iff]
  rintro ⟨-, n, hn, -⟩
  rw [h] at hn
  cases hn

theorem filter_adapterDel_congr {db2 : DB} {q : Query} {P : StoredDoc → Bool}
    (h : ∀ r ∈ db2, P r = true → matchesQuery q r = false) :
    (adapterDel db2 q).filter P = db2.filter P := by
  rw [adapterDel, List.filter_filter]
  apply List.filter_congr
  intro r hr
  cases hP : P r
  · simp
  · simp [h r hr hP]

theorem svValueOf_adapterDel {db2 : DB} {d : String} {q : Query}
    (h : ∀ r ∈ db2, matchesQuery (createDocumentStateVectorKey d) r = true →
      matchesQuery q r = false) :
    svValueOf (adapterDel db2 q) d = svValueOf db2 d := by
  rw [svValueOf, svValueOf, adapterGet, adapterGet, adapterDel, List.filter_filter]
  have he : db2.filter
      (fun r => matchesQuery (createDocumentStateVectorKey d) r &&
        !matchesQuery q r) =
      db2.filter (matchesQuery (createDocumentStateVectorKey d)) := by
    apply List.filter_congr
    intro r hr
    cases hsv : matchesQuery (createDocumentStateVectorKey d) r
    · simp
    · simp [h r hr hsv]
  rw [he]

theorem updateRecords_upsert_sv (db0 : DB) (d : String) (v : Bytes) :
    updateRecords (upsertRecord (createDocumentStateVectorKey d) v db0) d =
      updateRecords db0 d :=
  filter_upsertRecord_of_disjoint (fun r => matchesQuery_set_value _ r _)
    (fun r _ hm => by
      apply bool_eq_false_of_not
      rw [matches_updateKey_none_iff]
      rw [matches_svKey_iff] at hm
      rintro ⟨hv, -, -⟩
      rw [hm.1] at hv
      simp at hv)
    rfl

theorem updateRecords_adapterDel (db2 : DB) (d : String) (q : Query) :
    updateRecords (adapterDel db2 q) d =
      (updateRecords db2 d).filter (fun r => !matchesQuery q r) := by
  rw [updateRecords, adapterDel, List.filter_filter, updateRecords,
    List.filter_filter]
  exact List.filter_congr (fun r _ => Bool.and_comm _ _)

/-- The full effect of `flushDocument` on a document that has at least one
update record: the merged update is stored at `m + 1` (one past the
current clock), the state vector is rewritten at `m + 1`, exactly the
update records with clock in `[0, m + 1)` are deleted, and metadata and
other documents are untouched. -/
theorem flushDocument_spec {bound : Nat} {db : DB} {d : String} (M : YModel)
    (u sv : Bytes) (hb : bound ≤ BITS32) (hwf : WFDoc bound db d) (hd : d ≠ "")
    (hne : updateRecords db d ≠ []) :
    ∃ (dbF : DB) (m : Nat),
      getCurrentUpdateClock db d = (m : Int) ∧
      flushDocument M db d u sv = .ok (dbF, m + 1) ∧
      updateRecords dbF d = storedChunks d (m + 1) u ∧
      getMongoUpdates dbF d = .ok [u] ∧
      svValueOf dbF d = some (encodeStateVectorValue (m + 1) sv) ∧
      metaRecords dbF d = metaRecords db d ∧
      dbF.filter (fun r => !(r.docName == d)) =
        db.filter (fun r => !(r.docName == d)) ∧
      (m + 1 < bound → WFDoc bound dbF d) := by
  obtain ⟨m, hm, -, hmax⟩ := getCurrentUpdateClock_spec hb hwf hne
  have hnat : (getCurrentUpdateClock db d + 1).toNat = m + 1 := by rw [hm]; omega
  have hcurne : ¬getCurrentUpdateClock db d = -1 := by rw [hm]; omega
  obtain ⟨db1, hstore, hupd1, hsv1, hP1, hmem1⟩ := storeUpdate_spec M u hb hwf hd
  rw [hnat] at hstore hupd1 hP1 hmem1
  rw [if_neg hcurne] at hsv1
  have hflush : flushDocument M db d u sv =
      .ok (clearUpdatesRange (upsertRecord (createDocumentStateVectorKey d)
        (encodeStateVectorValue (m + 1) sv) db1) d 0 (m + 1), m + 1) := by
    rw [flushDocument, hstore, ok_bind]
    dsimp only
    rw [writeStateVector, adapterPut_svKey _ d _ hd, ok_bind]
    rfl
  have hshape1 : ∀ r ∈ db1, ∃ r₀, sameShape r r₀ ∧
      (r₀ ∈ db ∨ r₀ ∈ storedChunks d (m + 1) u ∨
        r₀ = recordOfQuery (createDocumentStateVectorKey d)
          (encodeStateVectorValue 0 (M.merge [u]).2)) := by
    intro r hr
    rcases hmem1 r hr with h | h | h | ⟨r₁, hr₁, he⟩
    · exact ⟨r, sameShape_refl r, Or.inl h⟩
    · exact ⟨r, sameShape_refl r, Or.inr (Or.inl h)⟩
    · subst h; exact ⟨_, sameShape_refl _, Or.inr (Or.inr rfl)⟩
    · subst he; exact ⟨r₁, sameShape_set_value r₁ _, Or.inl hr₁⟩
  have hshape2 : ∀ r ∈ upsertRecord (createDocumentStateVectorKey d)
      (encodeStateVectorValue (m + 1) sv) db1, ∃ r₀, sameShape r r₀ ∧
      (r₀ ∈ db ∨ r₀ ∈ storedChunks d (m + 1) u ∨
        r₀ = recordOfQuery (createDocumentStateVectorKey d)
          (encodeStateVectorValue 0 (M.merge [u]).2) ∨
        r₀ = recordOfQuery (createDocumentStateVectorKey d)
          (encodeStateVectorValue (m + 1) sv)) := by
    intro r hr
    rcases mem_upsertRecord hr with h | h | ⟨r₁, hr₁, he⟩
    · obtain ⟨r₀, hs, hcase⟩ := hshape1 r h
      exact ⟨r₀, hs, by tauto⟩
    · subst h; exact ⟨_, sameShape_refl _, Or.inr (Or.inr (Or.inr rfl))⟩
    · subst he
      obtain ⟨r₀, hs, hcase⟩ := hshape1 r₁ hr₁
      exact ⟨r₀, sameShape_trans (sameShape_set_value r₁ _) hs, by tauto⟩
  -- state-vector-shaped records never carry a clock
  have hA : ∀ r ∈ upsertRecord (createDocumentStateVectorKey d)
      (encodeStateVectorValue (m + 1) sv) db1,
      matchesQuery (createDocumentStateVectorKey d) r = true → r.clock = none := by
    intro r hr hm'
    obtain ⟨r₀, hs, hcase⟩ := hshape2 r hr
    rw [matchesQuery_of_sameShape _ hs] at hm'
    rw [hs.2.2.2.1]
    obtain ⟨hver, hdoc⟩ := matches_svKey_iff.mp hm'
    rcases hcase with h | h | h | h
    · exact (wfRecord_sv (hwf r₀ h) hdoc hver).2.1
    · obtain ⟨hv, -, -, -, -⟩ := mem_storedChunks h
      rw [hv] at hver
      simp at hver
    · subst h; rfl
    · subst h; rfl
  -- metadata-shaped records never carry a clock
  have hB : ∀ r ∈ upsertRecord (createDocumentStateVectorKey d)
      (encodeStateVectorValue (m + 1) sv) db1,
      (r.docName == d && r.metaKey.isSome) = true → r.clock = none := by
    intro r hr hm'
    obtain ⟨r₀, hs, hcase⟩ := hshape2 r hr
    simp only [Bool.and_eq_true, beq_iff_eq] at hm'
    rw [hs.2.1, hs.2.2.2.2.2] at hm'
    rw [hs.2.2.2.1]
    rcases hcase with h | h | h | h
    · exact (wfRecord_meta (hwf r₀ h) hm'.1 hm'.2).2.2
    · obtain ⟨-, -, -, -, hmk⟩ := mem_storedChunks h
      rw [hmk] at hm'
      simp at hm'
    · subst h; rfl
    · subst h; rfl
  have hupd2 : updateRecords (upsertRecord (createDocumentStateVectorKey d)
      (encodeStateVectorValue (m + 1) sv) db1) d =
      updateRecords db d ++ storedChunks d (m + 1) u := by
    rw [updateRecords_upsert_sv, hupd1]
  refine ⟨_, m, hm, hflush, ?_, ?_, ?_, ?_, ?_, ?_⟩
  · -- update records after the flush: exactly the new chunk block
    rw [clearUpdatesRange, updateRecords_adapterDel, hupd2, List.filter_append]
    have hold : (updateRecords db d).filter
        (fun r => !matchesQuery { docName := some d, clock := .range 0 (m + 1) } r)
          = [] := by
      apply List.filter_eq_nil_iff.mpr
      intro r hr
      obtain ⟨c, hc, -⟩ := updateRecords_have_clock hwf r hr
      have hcm := hmax r hr c hc
      have hdoc := (matches_updateKey_none_iff.mp (List.of_mem_filter hr)).2.2
      have : matchesQuery { docName := some d, clock := .range 0 (m + 1) } r
          = true :=
        matches_range_iff.mpr ⟨hdoc, c, hc, by omega, by omega⟩
      simp [this]
    have hnew : (storedChunks d (m + 1) u).filter
        (fun r => !matchesQuery { docName := some d, clock := .range 0 (m + 1) } r)
          = storedChunks d (m + 1) u := by
      apply List.filter_eq_self.mpr
      intro r hr
      obtain ⟨-, -, -, hc, -⟩ := mem_storedChunks hr
      have : matchesQuery { docName := some d, clock := .range 0 (m + 1) } r
          = false := by
        apply bool_eq_false_of_not
        rw [matches_range_iff]
        rintro ⟨-, n', hn', -, hlt'⟩
        rw [hc] at hn'
        have : n' = m + 1 := by simpa using hn'.symm
        omega
      simp [this]
    rw [hold, hnew, List.nil_append]
  · -- reading the document back yields exactly the merged update
    have : updateRecords (clearUpdatesRange (upsertRecord
        (createDocumentStateVectorKey d)
        (encodeStateVectorValue (m + 1) sv) db1) d 0 (m + 1)) d =
        storedChunks d (m + 1) u := by
      rw [clearUpdatesRange, updateRecords_adapterDel, hupd2, List.filter_append]
      have hold : (updateRecords db d).filter
          (fun r => !matchesQuery { docName := some d, clock := .range 0 (m + 1) } r)
            = [] := by
        apply List.filter_eq_nil_iff.mpr
        intro r hr
        obtain ⟨c, hc, -⟩ := updateRecords_have_clock hwf r hr
        have hcm := hmax r hr c hc
        have hdoc := (matches_updateKey_none_iff.mp (List.of_mem_filter hr)).2.2
        have : matchesQuery { docName := some d, clock := .range 0 (m + 1) } r
            = true :=
          matches_range_iff.mpr ⟨hdoc, c, hc, by omega, by omega⟩
        simp [this]
      have hnew : (storedChunks d (m + 1) u).filter
          (fun r => !matchesQuery { docName := some d, clock := .range 0 (m + 1) } r)
            = storedChunks d (m + 1) u := by
        apply List.filter_eq_self.mpr
        intro r hr
        obtain ⟨-, -, -, hc, -⟩ := mem_storedChunks hr
        have : matchesQuery { docName := some d, clock := .range 0 (m + 1) } r
            = false := by
          apply bool_eq_false_of_not
          rw [matches_range_iff]
          rintro ⟨-, n', hn', -, hlt'⟩
          rw [hc] at hn'
          have : n' = m + 1 := by simpa using hn'.symm
          omega
        simp [this]
      rw [hold, hnew, List.nil_append]
    rw [getMongoUpdates_eq, this, insertionSort_storedChunks,
      convertLoop_storedChunks]
  · -- the state vector now records clock m + 1
    rw [clearUpdatesRange, svValueOf_adapterDel
      (fun r hr hm' => matches_range_of_clock_none (hA r hr hm')),
      svValueOf_upsert]
  · -- metadata untouched
    rw [clearUpdatesRange, metaRecords, filter_adapterDel_congr
      (fun r hr hp => matches_range_of_clock_none (hB r hr hp))]
    have h2 : (upsertRecord (createDocumentStateVectorKey d)
        (encodeStateVectorValue (m + 1) sv) db1).filter
          (fun r => r.docName == d && r.metaKey.isSome) =
        db1.filter (fun r => r.docName == d && r.metaKey.isSome) := by
      apply filter_upsertRecord_of_disjoint (fun r => rfl)
      · intro r hr hm'
        obtain ⟨r₀, hs, hcase⟩ := hshape1 r hr
        rw [matchesQuery_of_sameShape _ hs] at hm'
        obtain ⟨hver, hdoc⟩ := matches_svKey_iff.mp hm'
        rw [hs.2.2.2.2.2]
        rcases hcase with h | h | h
        · rw [(wfRecord_sv (hwf r₀ h) hdoc hver).2.2]
          simp
        · obtain ⟨hv, -, -, -, -⟩ := mem_storedChunks h
          rw [hv] at hver
          simp at hver
        · subst h; simp [recordOfQuery, createDocumentStateVectorKey]
      · simp [recordOfQuery, createDocumentStateVectorKey]
    rw [h2]
    have h1 : db1.filter (fun r => r.docName == d && r.metaKey.isSome) =
        db.filter (fun r => r.docName == d && r.metaKey.isSome) := by
      apply hP1 (fun r => r.docName == d && r.metaKey.isSome) (fun r v' => rfl)
      · intro r hr hm'
        obtain ⟨hver, hdoc⟩ := matches_svKey_iff.mp hm'
        rw [(wfRecord_sv (hwf r hr) hdoc hver).2.2]
        simp
      · simp [recordOfQuery, createDocumentStateVectorKey]
      · intro r hr
        obtain ⟨-, -, -, -, hmk⟩ := mem_storedChunks hr
        rw [hmk]
        simp
    rw [h1, metaRecords]
  · -- other documents untouched
    rw [clearUpdatesRange, filter_adapterDel_congr
      (fun r hr hp => by
        apply bool_eq_false_of_not
        rw [matches_range_iff]
        rintro ⟨hdoc, -⟩
        rw [hdoc] at hp
        simp at hp)]
    have h2 : (upsertRecord (createDocumentStateVectorKey d)
        (encodeStateVectorValue (m + 1) sv) db1).filter
          (fun r => !(r.docName == d)) =
        db1.filter (fun r => !(r.docName == d)) := by
      apply filter_upsertRecord_of_disjoint (fun r => rfl)
      · intro r hr hm'
        obtain ⟨-, hdoc⟩ := matches_svKey_iff.mp hm'
        rw [hdoc]
        simp
      · simp [recordOfQuery, createDocumentStateVectorKey]
    rw [h2]
    apply hP1 (fun r => !(r.docName == d)) (fun r v' => rfl)
    · intro r hr hm'
      obtain ⟨-, hdoc⟩ := matches_svKey_iff.mp hm'
      rw [hdoc]
      simp
    · simp [recordOfQuery, createDocumentStateVectorKey]
    · intro r hr
      obtain ⟨-, -, hdoc, -, -⟩ := mem_storedChunks hr
      rw [hdoc]
      simp
  · -- well-formedness is preserved once the new clock is below the bound
    intro hroom r hr
    have hr2 := mem_adapterDel hr
    obtain ⟨r₀, hs, hcase⟩ := hshape2 r hr2
    rw [wfRecord_of_sameShape bound d hs]
    rcases hcase with h | h | h | h
    · exact hwf r₀ h
    · exact wfRecord_of_chunk h hroom
    · subst h; exact wfRecord_svNew bound d _
    · subst h; exact wfRecord_svNew bound d _

/-! ## Totality of the write path (puts only fail on an empty name) -/

theorem putChunksAux_ok {d : String} {n : Nat} {u : Bytes} (hd : d ≠ "") :
    ∀ (is : List Nat) (db : DB), ∃ db', putChunksAux d n u db is = .ok db' := by
  intro is
  induction is with
  | nil => intro db; exact ⟨db, rfl⟩
  | cons i is ih =>
    intro db
    rw [putChunksAux, adapterPut_chunkKey db d n (i + 1) (chunkSlice u i) hd]
    exact ih _

theorem storeUpdate_ok (M : YModel) (db : DB) {d : String} (u : Bytes)
    (hd : d ≠ "") : ∃ p, storeUpdate M db d u = .ok p := by
  rw [storeUpdate]
  by_cases hcur : getCurrentUpdateClock db d = -1
  · rw [if_pos hcur, writeStateVector, adapterPut_svKey db d _ hd, ok_bind]
    dsimp only
    by_cases hlen : u.length ≤ MAX_DOCUMENT_SIZE
    · rw [if_pos hlen, adapterPut_updateKey _ d _ u hd, ok_bind]
      exact ⟨_, rfl⟩
    · rw [if_neg hlen]
      obtain ⟨db', hdb'⟩ := putChunksAux_ok hd (List.range (totalChunksOf u.length)) _
      rw [hdb', ok_bind]
      exact ⟨_, rfl⟩
  · rw [if_neg hcur, ok_bind]
    dsimp only
    by_cases hlen : u.length ≤ MAX_DOCUMENT_SIZE
    · rw [if_pos hlen, adapterPut_updateKey _ d _ u hd, ok_bind]
      exact ⟨_, rfl⟩
    · rw [if_neg hlen]
      obtain ⟨db', hdb'⟩ := putChunksAux_ok hd (List.range (totalChunksOf u.length)) _
      rw [hdb', ok_bind]
      exact ⟨_, rfl⟩

theorem flushDocument_ok (M : YModel) (db : DB) {d : String} (u sv : Bytes)
    (hd : d ≠ "") : ∃ p, flushDocument M db d u sv = .ok p := by
  obtain ⟨⟨db1, c⟩, h1⟩ := storeUpdate_ok M db u hd
  rw [flushDocument, h1, ok_bind]
  dsimp only
  rw [writeStateVector, adapterPut_svKey _ d _ hd, ok_bind]
  exact ⟨_, rfl⟩

/-- If a document has no update records, its current clock reads as -1
(no invariant needed: the limit-1 query only matches update records). -/
theorem getCurrentUpdateClock_of_no_updates {db : DB} {d : String}
    (h : updateRecords db d = []) : getCurrentUpdateClock db d = -1 := by
  rw [getCurrentUpdateClock, readAsCursor]
  have hnil : db.filter (matchesQuery
      { createDocumentUpdateKey d (some 0) with clock := .range 0 BITS32 }) = [] := by
    apply List.filter_eq_nil_iff.mpr
    intro r hr
    intro hcontra
    obtain ⟨h1, h2, h3, -⟩ := matches_curQuery_iff.mp hcontra
    have : r ∈ updateRecords db d :=
      List.mem_filter.mpr ⟨hr, matches_updateKey_none_iff.mpr ⟨h1, h2, h3⟩⟩
    rw [h] at this
    cases this
  rw [hnil]
  rfl

/-- `updateOne` on a store whose first match is at a known position. -/
theorem setValueFirst_append {p : StoredDoc → Bool} {v : Bytes} {L1 : DB}
    (r : StoredDoc) (L2 : DB) (h1 : ∀ x ∈ L1, p x = false) (h2 : p r = true) :
    setValueFirst p v (L1 ++ r :: L2) = L1 ++ { r with value := v } :: L2 := by
  induction L1 with
  | nil => simp [setValueFirst, h2]
  | cons x xs ih =>
    rw [List.cons_append, setValueFirst,
      if_neg (by simp [h1 x (List.mem_cons_self x xs)]), List.cons_append,
      ih (fun y hy => h1 y (List.mem_cons_of_mem x hy))]

theorem clearUpdatesRange_empty (db : DB) (d : String) (lo : Nat) :
    clearUpdatesRange db d lo lo = db := by
  rw [clearUpdatesRange, adapterDel]
  apply List.filter_eq_self.mpr
  intro r _
  have : matchesQuery { docName := some d, clock := .range lo lo } r = false := by
    apply bool_eq_false_of_not
    rw [matches_range_iff]
    rintro ⟨-, n, -, h1, h2⟩
    omega
  simp [this]

theorem bigPayload_length : bigPayload.length = 15000001 :=
  List.length_replicate 15000001 0

/-- `totalChunksOf` is the ceiling of `len / MAX_DOCUMENT_SIZE`: the chunk
count is the least number of budget-sized slices covering the payload. -/
theorem totalChunksOf_ceil {len : Nat} (h : 0 < len) :
    len ≤ totalChunksOf len * MAX_DOCUMENT_SIZE ∧
    (totalChunksOf len - 1) * MAX_DOCUMENT_SIZE < len := by
  have hdiv : totalChunksOf len * MAX_DOCUMENT_SIZE ≤ len + MAX_DOCUMENT_SIZE - 1 :=
    Nat.div_mul_le_self _ _
  have hup : len + MAX_DOCUMENT_SIZE - 1 < (totalChunksOf len + 1) * MAX_DOCUMENT_SIZE :=
    (Nat.div_lt_iff_lt_mul (by norm_num [MAX_DOCUMENT_SIZE])).mp (Nat.lt_succ_self _)
  have hpos := totalChunksOf_pos h
  generalize totalChunksOf len = t at *
  simp only [MAX_DOCUMENT_SIZE] at *
  omega

theorem storedChunks_map_clock (d : String) (c : Nat) (u : Bytes) :
    (storedChunks d c u).map (fun r => r.clock) =
      List.replicate (storedChunks d c u).length (some c) := by
  have H : ∀ L : List StoredDoc, (∀ r ∈ L, r.clock = some c) →
      L.map (fun r => r.clock) = List.replicate L.length (some c) := by
    intro L
    induction L with
    | nil => intro _; rfl
    | cons x xs ih =>
      intro hL
      simp only [List.map_cons, List.length_cons, List.replicate_succ]
      rw [hL x (List.mem_cons_self x xs),
        ih (fun r hr => hL r (List.mem_cons_of_mem x hr))]
  exact H _ (fun r hr => (mem_storedChunks hr).2.2.2.1)

/-- Claim C1: a payload strictly over the 15000000-byte budget is stored by
`storeUpdate` as `ceil(len / 15000000)` chunk records (the chunk count `N`
is the least cover: `(N-1)·MAX < len ≤ N·MAX`), all sharing the new clock
`n`, with `part = 1..N` in order; their values concatenate back to the
payload, and reading the document's update records back sorted and
reassembling them yields the prior updates plus a byte-identical copy of
the payload. -/
theorem chunking_round_trip {bound : Nat} (M : YModel) {db : DB} {d : String}
    (u : Bytes) {us : List Bytes} (hbig : MAX_DOCUMENT_SIZE < u.length)
    (hb : bound ≤ BITS32) (hwf : WFDoc bound db d) (hd : d ≠ "")
    (hok : getMongoUpdates db d = .ok us) :
    ∃ (db' : DB) (n N : Nat),
      storeUpdate M db d u = .ok (db', n) ∧
      updateRecords db' d = updateRecords db d ++ storedChunks d n u ∧
      (storedChunks d n u).length = N ∧
      u.length ≤ N * MAX_DOCUMENT_SIZE ∧
      (N - 1) * MAX_DOCUMENT_SIZE < u.length ∧
      (storedChunks d n u).map (fun r => r.clock) = List.replicate N (some n) ∧
      (storedChunks d n u).map (fun r => r.part) =
        (List.range N).map (fun i => some (i + 1)) ∧
      ((storedChunks d n u).map (fun r => r.value)).flatten = u ∧
      getMongoUpdates db' d = .ok (us ++ [u]) := by
  obtain ⟨db', hstore, hupd, -, -, -⟩ := storeUpdate_spec M u hb hwf hd
  refine ⟨db', (getCurrentUpdateClock db d + 1).toNat, totalChunksOf u.length,
    hstore, hupd, length_storedChunks_of_big hbig,
    (totalChunksOf_ceil (by omega)).1, (totalChunksOf_ceil (by omega)).2,
    ?_, ?_, ?_, ?_⟩
  · rw [storedChunks_map_clock, length_storedChunks_of_big hbig]
  · exact storedChunks_map_part_of_big hbig
  · rw [storedChunks_map_value_of_big hbig]
    exact flatten_chunkSlices u
  · exact getMongoUpdates_append hwf hupd hok (updateRecords_clock_lt hb hwf)

theorem chunking_round_trip_witness :
    MAX_DOCUMENT_SIZE < bigPayload.length ∧
    ∃ (db' : DB) (n N : Nat),
      storeUpdate trivialYModel [] "doc" bigPayload = .ok (db', n) ∧
      (storedChunks "doc" n bigPayload).length = N ∧
      bigPayload.length ≤ N * MAX_DOCUMENT_SIZE ∧
      (N - 1) * MAX_DOCUMENT_SIZE < bigPayload.length ∧
      ((storedChunks "doc" n bigPayload).map (fun r => r.value)).flatten =
        bigPayload ∧
      getMongoUpdates db' "doc" = .ok ([] ++ [bigPayload]) := by
  have hbig : MAX_DOCUMENT_SIZE < bigPayload.length := by
    rw [bigPayload_length]; norm_num [MAX_DOCUMENT_SIZE]
  obtain ⟨db', n, N, h1, -, h3, h4, h5, -, -, h8, h9⟩ :=
    chunking_round_trip trivialYModel bigPayload hbig
      (le_refl BITS32) (fun r hr => absurd hr (List.not_mem_nil r))
      (show "doc" ≠ "" from by decide)
      (show getMongoUpdates [] "doc" = .ok [] from rfl)
  exact ⟨hbig, db', n, N, h1, h3, h4, h5, h8, h9⟩

/-- A stored update record carrying `part = 2` with no preceding
`part = 1` record is silently dropped by reassembly: the read succeeds
and its data is simply missing from the result. -/
theorem convert_skips_orphan_part :
    getMongoUpdates [⟨"v1", "d", some "update", some 0, some 2, none, [1]⟩] "d" =
      .ok [] := by decide

/-- Claim C2, amended: inside a chunk run — begun by a `part = 1` record —
a same-clock successor must carry exactly the next part id or reassembly
fails with the part-missing error; but a record carrying `part ≥ 2`
outside any run is silently skipped (the `if`/`else if` cascade has no
final `else`), and a run truncated by the end of the record stream is
emitted without error. -/
theorem convert_part_sequence (d1 d2 : StoredDoc) (rest : List StoredDoc) (k : Nat) :
    (d1.part = some 1 → d2.clock = d1.clock → d2.part ≠ some 2 →
      convertMongoUpdates (d1 :: d2 :: rest) =
        .error "Couldnt merge updates together because a part is missing!") ∧
    (d1.part = some (k + 2) →
      convertMongoUpdates (d1 :: rest) = convertMongoUpdates rest) ∧
    (d1.part = some 1 → convertMongoUpdates [d1] = .ok [d1.value]) := by
  refine ⟨?_, ?_, ?_⟩
  · intro h1 h2 h3
    rw [convertMongoUpdates]
    simp only [convertLoop]
    rw [h1]
    dsimp only
    rw [if_pos h2]
    cases hp : d2.part with
    | none => rfl
    | some p =>
      dsimp only
      rw [if_neg (fun hc => h3 (by rw [hp, hc]))]
  · intro h1
    rw [convertMongoUpdates, convertMongoUpdates]
    simp only [convertLoop]
    rw [h1]
  · intro h1
    rw [convertMongoUpdates]
    simp only [convertLoop]
    rw [h1]

theorem convert_part_sequence_witness :
    convertMongoUpdates [⟨"v1", "d", some "update", some 0, some 1, none, [1]⟩,
        ⟨"v1", "d", some "update", some 0, some 3, none, [2]⟩] =
      .error "Couldnt merge updates together because a part is missing!" ∧
    convertMongoUpdates [⟨"v1", "d", some "update", some 0, some 4, none, [9]⟩] =
      .ok [] ∧
    convertMongoUpdates [⟨"v1", "d", some "update", some 0, some 1, none, [1]⟩] =
      .ok [[1]] := by
  refine ⟨?_, ?_, ?_⟩
  · exact (convert_part_sequence
      ⟨"v1", "d", some "update", some 0, some 1, none, [1]⟩
      ⟨"v1", "d", some "update", some 0, some 3, none, [2]⟩ [] 0).1
      rfl rfl (by decide)
  · exact ((convert_part_sequence
      ⟨"v1", "d", some "update", some 0, some 4, none, [9]⟩
      ⟨"v1", "d", some "update", some 0, some 4, none, [9]⟩ [] 2).2.1
      (by decide)).trans rfl
  · exact (convert_part_sequence
      ⟨"v1", "d", some "update", some 0, some 1, none, [1]⟩
      ⟨"v1", "d", some "update", some 0, some 1, none, [1]⟩ [] 0).2.2 rfl

/-- Claim C3: compacting a document with at least one update record stores
the merged update at terminal clock `m + 1` (one past the previous
current clock `m`), writes the state-vector record at that terminal
clock, deletes exactly the update records with clock in `[0, m + 1)` (all
prior update records are in that range, and only the just-written chunk
set survives, at clock `m + 1`), leaves other documents untouched, and
returns the terminal clock. -/
theorem flushDocument_compaction {bound : Nat} {db : DB} {d : String} (M : YModel)
    (u sv : Bytes) (hb : bound ≤ BITS32) (hwf : WFDoc bound db d) (hd : d ≠ "")
    (hne : updateRecords db d ≠ []) :
    ∃ (dbF : DB) (m : Nat),
      getCurrentUpdateClock db d = (m : Int) ∧
      flushDocument M db d u sv = .ok (dbF, m + 1) ∧
      updateRecords dbF d = storedChunks d (m + 1) u ∧
      (∀ r ∈ updateRecords dbF d, r.clock = some (m + 1)) ∧
      (∀ r ∈ updateRecords db d, ∀ c, r.clock = some c → c < m + 1) ∧
      svValueOf dbF d = some (encodeStateVectorValue (m + 1) sv) ∧
      dbF.filter (fun r => !(r.docName == d)) =
        db.filter (fun r => !(r.docName == d)) := by
  obtain ⟨dbF, m, h1, h2, h3, -, h5, -, h7, -⟩ :=
    flushDocument_spec M u sv hb hwf hd hne
  refine ⟨dbF, m, h1, h2, h3, ?_, ?_, h5, h7⟩
  · intro r hr
    rw [h3] at hr
    exact (mem_storedChunks hr).2.2.2.1
  · intro r hr c hc
    have := updateRecords_clock_lt hb hwf r hr c hc
    rw [h1] at this
    omega

theorem flushDocument_compaction_witness :
    ∃ (dbF : DB) (m : Nat),
      getCurrentUpdateClock
        [⟨"v1_sv", "d", none, none, none, none, [0, 0]⟩,
         ⟨"v1", "d", some "update", some 0, none, none, [4]⟩] "d" = (m : Int) ∧
      flushDocument trivialYModel
        [⟨"v1_sv", "d", none, none, none, none, [0, 0]⟩,
         ⟨"v1", "d", some "update", some 0, none, none, [4]⟩] "d" [9] [7] =
        .ok (dbF, m + 1) ∧
      updateRecords dbF "d" = storedChunks "d" (m + 1) [9] ∧
      svValueOf dbF "d" = some (encodeStateVectorValue (m + 1) [7]) := by
  obtain ⟨dbF, m, h1, h2, h3, -, -, h6, -⟩ :=
    flushDocument_compaction trivialYModel [9] [7] (le_refl BITS32)
      (by unfold WFDoc; decide) (by decide)
      (show updateRecords
        [⟨"v1_sv", "d", none, none, none, none, [0, 0]⟩,
         ⟨"v1", "d", some "update", some 0, none, none, [4]⟩] "d" ≠ [] by decide)
  exact ⟨dbF, m, h1, h2, h3, h6⟩

/-- Claim C4: when a state-vector record exists, decodes, and its stored
clock equals the current update clock, `getStateVector` returns the
stored summary with the store unchanged; when the stored clock differs
from the current clock, or no state-vector record exists, it recomputes:
all updates are read and merged, a flush is performed, and the freshly
computed summary is returned. -/
theorem getStateVector_freshness (M : YModel) (db : DB) (d : String) :
    (∀ r c sv, adapterGet db (createDocumentStateVectorKey d) = some r →
      decodeStateVectorValue r.value = some (c, sv) →
      (c : Int) = getCurrentUpdateClock db d →
      getStateVector M db d = .ok (db, sv)) ∧
    (∀ us, d ≠ "" → getMongoUpdates db d = .ok us →
      (adapterGet db (createDocumentStateVectorKey d) = none ∨
        ∃ r c sv, adapterGet db (createDocumentStateVectorKey d) = some r ∧
          decodeStateVectorValue r.value = some (c, sv) ∧
          (c : Int) ≠ getCurrentUpdateClock db d) →
      ∃ (dbF : DB) (n : Nat),
        flushDocument M db d (M.merge us).1 (M.merge us).2 = .ok (dbF, n) ∧
        getStateVector M db d = .ok (dbF, (M.merge us).2)) := by
  constructor
  · intro r c sv hget hdec hclk
    rw [getStateVector, readStateVector, hget]
    try dsimp only
    rw [hdec]
    try dsimp only
    rw [ok_bind]
    try dsimp only
    rw [if_pos hclk]
    rfl
  · rintro us hd hok hcase
    obtain ⟨⟨dbF, n⟩, hfl⟩ := flushDocument_ok M db (M.merge us).1 (M.merge us).2 hd
    refine ⟨dbF, n, hfl, ?_⟩
    rcases hcase with hnone | ⟨r, c, sv, hget, hdec, hne⟩
    · rw [getStateVector, readStateVector, hnone]
      try dsimp only
      rw [ok_bind]
      try dsimp only
      rw [hok, ok_bind]
      try dsimp only
      rw [hfl, ok_bind]
      rfl
    · rw [getStateVector, readStateVector, hget]
      try dsimp only
      rw [hdec]
      try dsimp only
      rw [ok_bind]
      try dsimp only
      rw [if_neg hne, hok, ok_bind]
      try dsimp only
      rw [hfl, ok_bind]
      rfl

theorem getStateVector_freshness_witness :
    getStateVector trivialYModel
      [⟨"v1_sv", "d", none, none, none, none, [0, 1, 5]⟩,
       ⟨"v1", "d", some "update", some 0, none, none, [4]⟩] "d" =
      .ok ([⟨"v1_sv", "d", none, none, none, none, [0, 1, 5]⟩,
            ⟨"v1", "d", some "update", some 0, none, none, [4]⟩], [5]) ∧
    ∃ (dbF : DB) (n : Nat),
      flushDocument trivialYModel
        [⟨"v1", "d", some "update", some 0, none, none, [4]⟩] "d" [4] [4] =
        .ok (dbF, n) ∧
      getStateVector trivialYModel
        [⟨"v1", "d", some "update", some 0, none, none, [4]⟩] "d" =
        .ok (dbF, [4]) := by
  constructor
  · exact (getStateVector_freshness trivialYModel
      [⟨"v1_sv", "d", none, none, none, none, [0, 1, 5]⟩,
       ⟨"v1", "d", some "update", some 0, none, none, [4]⟩] "d").1
      ⟨"v1_sv", "d", none, none, none, none, [0, 1, 5]⟩ 0 [5]
      (by decide) (by decide) (by decide)
  · obtain ⟨dbF, n, h1, h2⟩ := (getStateVector_freshness trivialYModel
      [⟨"v1", "d", some "update", some 0, none, none, [4]⟩] "d").2
      [[4]] (by decide) (by decide) (Or.inl (by decide))
    exact ⟨dbF, n, h1, h2⟩

theorem length_storedChunks_clock (d : String) (c1 c2 : Nat) (u : Bytes) :
    (storedChunks d c1 u).length = (storedChunks d c2 u).length := by
  rw [storedChunks, storedChunks]
  by_cases hb : u.length ≤ MAX_DOCUMENT_SIZE
  · rw [if_pos hb, if_pos hb]
    rfl
  · rw [if_neg hb, if_neg hb]
    simp

/-- Claim C5: compaction is idempotent.  Running the provider's
`flushDocument` twice with no intervening writes returns the same merged
summary both times (given the merge law that re-merging a single merged
update is a fixed point), leaves exactly one chunk set — at clock `m + 1`
after the first run and `m + 2` after the second — reassembling to exactly
one update each time, with no further reduction in the number of stored
update records from the second run. -/
theorem flush_idempotent {bound : Nat} {db : DB} {d : String} {us : List Bytes}
    (M : YModel) (hb : bound ≤ BITS32) (hwf : WFDoc bound db d) (hd : d ≠ "")
    (hne : updateRecords db d ≠ []) (hok : getMongoUpdates db d = .ok us)
    (hroom : ∀ r ∈ updateRecords db d, ∀ c, r.clock = some c → c + 2 < bound)
    (hlaw : M.merge [(M.merge us).1] = M.merge us) :
    ∃ (db1 db2 : DB) (m : Nat),
      getCurrentUpdateClock db d = (m : Int) ∧
      flushDocumentCommand M db d = .ok (db1, M.merge us) ∧
      flushDocumentCommand M db1 d = .ok (db2, M.merge us) ∧
      updateRecords db1 d = storedChunks d (m + 1) (M.merge us).1 ∧
      updateRecords db2 d = storedChunks d (m + 2) (M.merge us).1 ∧
      getMongoUpdates db1 d = .ok [(M.merge us).1] ∧
      getMongoUpdates db2 d = .ok [(M.merge us).1] ∧
      (updateRecords db2 d).length = (updateRecords db1 d).length := by
  obtain ⟨db1, m, h1, h2, h3, h4, -, -, -, h8⟩ :=
    flushDocument_spec M (M.merge us).1 (M.merge us).2 hb hwf hd hne
  have hm1 : m + 1 < bound := by
    obtain ⟨m', hm', ⟨r, hr, hrc⟩, -⟩ := getCurrentUpdateClock_spec hb hwf hne
    have hmm : m' = m := Nat.cast_inj.mp (hm'.symm.trans h1)
    subst hmm
    have := hroom r hr m' hrc
    omega
  have hwf1 : WFDoc bound db1 d := h8 hm1
  have hne1 : updateRecords db1 d ≠ [] := by
    rw [h3]
    exact storedChunks_ne_nil _ _ _
  obtain ⟨db2, m2, h1', h2', h3', h4', -, -, -, -⟩ :=
    flushDocument_spec M (M.merge us).1 (M.merge us).2 hb hwf1 hd hne1
  have hm2 : m2 = m + 1 := by
    obtain ⟨mm, hmm, ⟨r, hr, hrc⟩, -⟩ := getCurrentUpdateClock_spec hb hwf1 hne1
    have hc1 : r.clock = some (m + 1) := by
      rw [h3] at hr
      exact (mem_storedChunks hr).2.2.2.1
    rw [hc1] at hrc
    have hmm1 : m + 1 = mm := Option.some.inj hrc
    have hmm2 : mm = m2 := Nat.cast_inj.mp (hmm.symm.trans h1')
    omega
  have hcmd1 : flushDocumentCommand M db d = .ok (db1, M.merge us) := by
    rw [flushDocumentCommand, hok, ok_bind]
    try dsimp only
    rw [h2, ok_bind]
    rfl
  have hcmd2 : flushDocumentCommand M db1 d = .ok (db2, M.merge us) := by
    rw [flushDocumentCommand, h4, ok_bind]
    try dsimp only
    rw [hlaw, h2', ok_bind]
    rfl
  refine ⟨db1, db2, m, h1, hcmd1, hcmd2, h3, ?_, h4, h4', ?_⟩
  · rw [h3', hm2]
  · rw [h3, h3']
    exact length_storedChunks_clock d (m2 + 1) (m + 1) (M.merge us).1

theorem flush_idempotent_witness :
    ∃ (db1 db2 : DB),
      flushDocumentCommand trivialYModel
        [⟨"v1_sv", "d", none, none, none, none, [0, 0]⟩,
         ⟨"v1", "d", some "update", some 0, none, none, [4]⟩,
         ⟨"v1", "d", some "update", some 1, none, none, [5]⟩] "d" =
        .ok (db1, ([4, 5], [4, 5])) ∧
      flushDocumentCommand trivialYModel db1 "d" = .ok (db2, ([4, 5], [4, 5])) ∧
      (updateRecords db2 "d").length = (updateRecords db1 "d").length := by
  obtain ⟨db1, db2, -, -, h2, h3, -, -, -, -, h8⟩ :=
    flush_idempotent trivialYModel (le_refl BITS32)
      (show WFDoc BITS32
        [⟨"v1_sv", "d", none, none, none, none, [0, 0]⟩,
         ⟨"v1", "d", some "update", some 0, none, none, [4]⟩,
         ⟨"v1", "d", some "update", some 1, none, none, [5]⟩] "d"
        by unfold WFDoc; decide)
      (show "d" ≠ "" by decide)
      (show updateRecords
        [⟨"v1_sv", "d", none, none, none, none, [0, 0]⟩,
         ⟨"v1", "d", some "update", some 0, none, none, [4]⟩,
         ⟨"v1", "d", some "update", some 1, none, none, [5]⟩] "d" ≠ [] by decide)
      (show getMongoUpdates
        [⟨"v1_sv", "d", none, none, none, none, [0, 0]⟩,
         ⟨"v1", "d", some "update", some 0, none, none, [4]⟩,
         ⟨"v1", "d", some "update", some 1, none, none, [5]⟩] "d" =
        .ok [[4], [5]] by decide)
      (by
        intro r hr c hc
        have hr' : r ∈ [(⟨"v1", "d", some "update", some 0, none, none, [4]⟩ : StoredDoc),
            ⟨"v1", "d", some "update", some 1, none, none, [5]⟩] := hr
        simp only [List.mem_cons, List.not_mem_nil, or_false] at hr'
        rcases hr' with rfl | rfl
        · have h0 : some (0 : Nat) = some c := hc
          injection h0 with h0
          rw [← h0]
          decide
        · have h0 : some (1 : Nat) = some c := hc
          injection h0 with h0
          rw [← h0]
          decide)
      (by decide)
  exact ⟨db1, db2, h2, h3, h8⟩

theorem not_matches_of_mem_adapterDel {db : DB} {q : Query} {r : StoredDoc}
    (h : r ∈ adapterDel db q) : matchesQuery q r = false := by
  have := List.of_mem_filter h
  simpa using this

theorem matches_version_iff {v : String} {r : StoredDoc} :
    matchesQuery { version := some v } r = true ↔ r.version = v := by
  simp [matchesQuery, optMatches, clockMatches]

/-- After `clearDocument` (shared-collection mode) a still-stored metadata
record of the deleted document is still returned by `getMeta`: the claim
that metadata is removed and `getMeta` afterwards returns absent fails. -/
theorem clearDocument_leaves_meta_counterexample :
    getMeta (clearDocument
      [⟨"v1_sv", "doc", none, none, none, none, [0, 0]⟩,
       ⟨"v1", "doc", some "update", some 0, none, none, [4]⟩,
       ⟨"v1", "doc", none, none, none, some "meta_owner", [7]⟩]
      "doc") "doc" "owner" = some [7] := by decide

/-- Claim C6, amended: in shared-collection mode `clearDocument` removes
all of a document's update records and its state-vector record, so the
name listing afterwards excludes it; but its metadata records are
untouched — it deletes only the state-vector key and the clocked range,
and metadata records carry no clock — so `getMeta` still returns them. -/
theorem clearDocument_effect {bound : Nat} {db : DB} {d : String}
    (hb : bound ≤ BITS32) (hwf : WFDoc bound db d) :
    updateRecords (clearDocument db d) d = [] ∧
    svValueOf (clearDocument db d) d = none ∧
    d ∉ getAllDocNames (clearDocument db d) ∧
    metaRecords (clearDocument db d) d = metaRecords db d ∧
    (∀ k, getMeta (clearDocument db d) d k = getMeta db d k) := by
  refine ⟨?_, ?_, ?_, ?_, ?_⟩
  · rw [clearDocument, clearUpdatesRange, updateRecords_adapterDel]
    apply List.filter_eq_nil_iff.mpr
    intro r hr
    have hr0 : r ∈ updateRecords db d := by
      rw [updateRecords_adapterDel] at hr
      exact List.mem_of_mem_filter hr
    have hd' : r.docName = d :=
      (matches_updateKey_none_iff.mp (List.of_mem_filter hr0)).2.2
    obtain ⟨c, hc, hcb⟩ := updateRecords_have_clock hwf r hr0
    have hm : matchesQuery { docName := some d, clock := .range 0 BITS32 } r = true :=
      matches_range_iff.mpr ⟨hd', c, hc, Nat.zero_le c, by omega⟩
    simp [hm]
  · have hfil : (clearDocument db d).filter
        (matchesQuery (createDocumentStateVectorKey d)) = [] := by
      apply List.filter_eq_nil_iff.mpr
      intro r hr
      have h1 : r ∈ adapterDel db (createDocumentStateVectorKey d) :=
        mem_adapterDel hr
      have h2 := not_matches_of_mem_adapterDel h1
      simp [h2]
    rw [svValueOf, adapterGet, hfil]
    rfl
  · intro hmem
    rw [getAllDocNames] at hmem
    obtain ⟨r, hr, hrd⟩ := List.mem_map.mp hmem
    have hr' : r ∈ List.insertionSort leFwd ((clearDocument db d).filter
        (matchesQuery { version := some "v1_sv" })) := hr
    have hr2 : r ∈ (clearDocument db d).filter
        (matchesQuery { version := some "v1_sv" }) :=
      (List.perm_insertionSort _ _).mem_iff.mp hr'
    have hver := matches_version_iff.mp (List.of_mem_filter hr2)
    have hmem2 : r ∈ clearDocument db d := List.mem_of_mem_filter hr2
    have h1 : r ∈ adapterDel db (createDocumentStateVectorKey d) :=
      mem_adapterDel hmem2
    have h2 := not_matches_of_mem_adapterDel h1
    rw [matches_svKey_iff.mpr ⟨hver, hrd⟩] at h2
    cases h2
  · rw [clearDocument, clearUpdatesRange, metaRecords, metaRecords]
    rw [filter_adapterDel_congr (by
        intro r hr hP
        simp only [Bool.and_eq_true, beq_iff_eq] at hP
        obtain ⟨-, -, hclk⟩ :=
          wfRecord_meta (hwf r (mem_adapterDel hr)) hP.1 hP.2
        exact matches_range_of_clock_none hclk)]
    rw [filter_adapterDel_congr (by
        intro r hr hP
        simp only [Bool.and_eq_true, beq_iff_eq] at hP
        obtain ⟨hver, -, -⟩ := wfRecord_meta (hwf r hr) hP.1 hP.2
        apply bool_eq_false_of_not
        rw [matches_svKey_iff]
        rintro ⟨hv2, -⟩
        rw [hver] at hv2
        exact absurd hv2 (by decide))]
  · intro k
    have hfil : (clearDocument db d).filter
        (matchesQuery (createDocumentMetaKey d k)) =
        db.filter (matchesQuery (createDocumentMetaKey d k)) := by
      rw [clearDocument, clearUpdatesRange]
      rw [filter_adapterDel_congr (by
          intro r hr hP
          obtain ⟨hv, hd', hmk⟩ := matches_metaKey_iff.mp hP
          obtain ⟨-, -, hclk⟩ := wfRecord_meta (hwf r (mem_adapterDel hr)) hd'
            (by rw [hmk]; rfl)
          exact matches_range_of_clock_none hclk)]
      rw [filter_adapterDel_congr (by
          intro r hr hP
          obtain ⟨hv, hd', hmk⟩ := matches_metaKey_iff.mp hP
          apply bool_eq_false_of_not
          rw [matches_svKey_iff]
          rintro ⟨hv2, -⟩
          rw [hv] at hv2
          exact absurd hv2 (by decide))]
    rw [getMeta, getMeta, adapterGet, adapterGet, hfil]

theorem clearDocument_effect_witness :
    updateRecords (clearDocument
      [⟨"v1_sv", "doc2", none, none, none, none, [0, 0]⟩,
       ⟨"v1", "doc2", some "update", some 0, none, none, [4]⟩,
       ⟨"v1", "doc2", none, none, none, some "meta_owner", [7]⟩] "doc2") "doc2" = [] ∧
    svValueOf (clearDocument
      [⟨"v1_sv", "doc2", none, none, none, none, [0, 0]⟩,
       ⟨"v1", "doc2", some "update", some 0, none, none, [4]⟩,
       ⟨"v1", "doc2", none, none, none, some "meta_owner", [7]⟩] "doc2") "doc2" = none ∧
    "doc2" ∉ getAllDocNames (clearDocument
      [⟨"v1_sv", "doc2", none, none, none, none, [0, 0]⟩,
       ⟨"v1", "doc2", some "update", some 0, none, none, [4]⟩,
       ⟨"v1", "doc2", none, none, none, some "meta_owner", [7]⟩] "doc2") ∧
    getMeta (clearDocument
      [⟨"v1_sv", "doc2", none, none, none, none, [0, 0]⟩,
       ⟨"v1", "doc2", some "update", some 0, none, none, [4]⟩,
       ⟨"v1", "doc2", none, none, none, some "meta_owner", [7]⟩] "doc2")
      "doc2" "owner" =
      getMeta
      [⟨"v1_sv", "doc2", none, none, none, none, [0, 0]⟩,
       ⟨"v1", "doc2", some "update", some 0, none, none, [4]⟩,
       ⟨"v1", "doc2", none, none, none, some "meta_owner", [7]⟩] "doc2" "owner" := by
  obtain ⟨h1, h2, h3, -, h5⟩ := clearDocument_effect (le_refl BITS32)
    (show WFDoc BITS32
      [⟨"v1_sv", "doc2", none, none, none, none, [0, 0]⟩,
       ⟨"v1", "doc2", some "update", some 0, none, none, [4]⟩,
       ⟨"v1", "doc2", none, none, none, some "meta_owner", [7]⟩] "doc2"
      by unfold WFDoc; decide)
  exact ⟨h1, h2, h3, h5 "owner"⟩

theorem runQueue_length {α : Type} (fs : List (TransactOp α)) (db : DB) :
    (runQueue fs db).2.length = fs.length := by
  induction fs generalizing db with
  | nil => rfl
  | cons f fs ih => simp [runQueue, ih]

theorem runQueue_append {α : Type} (xs ys : List (TransactOp α)) (db : DB) :
    runQueue (xs ++ ys) db =
      ((runQueue ys (runQueue xs db).1).1,
       (runQueue xs db).2 ++ (runQueue ys (runQueue xs db).1).2) := by
  induction xs generalizing db with
  | nil => simp [runQueue]
  | cons f fs ih =>
    simp only [List.cons_append, runQueue]
    rw [show fs.append ys = fs ++ ys from rfl, ih]

/-- Claim C7: when a queued operation rejects, the rejection is caught at
the queue boundary and its caller receives the failed result (`none`) in
that operation's slot; the queue still advances — every later queued
operation runs (each produces a result slot, and the slots after the
failure are exactly those of running the rest of the queue on the store
the failed operation left behind). -/
theorem transact_queue_error_containment {α : Type} (pre post : List (TransactOp α))
    (f : TransactOp α) (db : DB) (e : String)
    (hf : (f (runQueue pre db).1).2 = .error e) :
    (runQueue (pre ++ f :: post) db).2 =
      (runQueue pre db).2 ++
        none :: (runQueue post (f (runQueue pre db).1).1).2 ∧
    (runQueue (pre ++ f :: post) db).1 =
      (runQueue post (f (runQueue pre db).1).1).1 ∧
    (runQueue (pre ++ f :: post) db).2.length = pre.length + 1 + post.length := by
  have hstep : transactStep f (runQueue pre db).1 =
      ((f (runQueue pre db).1).1, none) := by
    rw [transactStep]
    try dsimp only
    rw [hf]
    rfl
  have hcons : runQueue (f :: post) (runQueue pre db).1 =
      ((runQueue post (f (runQueue pre db).1).1).1,
       none :: (runQueue post (f (runQueue pre db).1).1).2) := by
    simp only [runQueue]
    rw [hstep]
  refine ⟨?_, ?_, ?_⟩
  · rw [runQueue_append]
    dsimp only
    rw [hcons]
  · rw [runQueue_append]
    dsimp only
    rw [hcons]
  · rw [runQueue_length]
    simp only [List.length_append, List.length_cons]
    omega

theorem transact_queue_error_containment_witness :
    (runQueue [fun db => (db, Except.error "boom"),
               fun db => (db, Except.ok (42 : Nat))] []).2 = [none, some 42] :=
  (transact_queue_error_containment [] [fun db => (db, Except.ok (42 : Nat))]
    (fun db => (db, Except.error "boom")) [] "boom" rfl).1

/-- Reading the summary of a never-written document is not record-free: on
an empty store, `getStateVector` writes a clock-0 update record and a
state-vector record for the document before returning. -/
theorem getStateVector_creates_records_counterexample :
    getStateVector trivialYModel [] "doc" =
      .ok ([⟨"v1_sv", "doc", none, none, none, none, [0, 0]⟩,
            ⟨"v1", "doc", some "update", some 0, none, none, []⟩], []) := by decide

/-- Claim C8, amended: for a docName with no stored records, `getYDoc`
(when the empty update list is within the flush threshold, which it
always is) leaves the store unchanged; but `getStateVector` does not — it
merges the empty update list and flushes, so it appends a clock-0 update
record holding the empty merge and a state-vector record at clock 0.
Document creation is therefore not confined to the first `storeUpdate`. -/
theorem nonexistent_doc_confinement (M : YModel) (db : DB) (d : String) (fs : Nat)
    (hnd : ∀ r ∈ db, r.docName ≠ d) (hd : d ≠ "")
    (hsmall : (M.merge []).1.length ≤ MAX_DOCUMENT_SIZE) :
    getYDoc M db d fs = .ok (db, M.merge []) ∧
    getStateVector M db d =
      .ok (db ++ [recordOfQuery (createDocumentStateVectorKey d)
              (encodeStateVectorValue 0 (M.merge []).2),
            updateRecordOf d 0 (M.merge []).1], (M.merge []).2) := by
  have hupd : updateRecords db d = [] :=
    List.filter_eq_nil_iff.mpr
      (fun r hr hm => hnd r hr (matches_updateKey_none_iff.mp hm).2.2)
  have hok : getMongoUpdates db d = .ok [] := by
    rw [getMongoUpdates_eq, hupd]
    rfl
  have hcur : getCurrentUpdateClock db d = -1 :=
    getCurrentUpdateClock_of_no_updates hupd
  have hnosv : ∀ r ∈ db, matchesQuery (createDocumentStateVectorKey d) r = false :=
    fun r hr => bool_eq_false_of_not (fun hm => hnd r hr (matches_svKey_iff.mp hm).2)
  have hnoupd : ∀ r ∈ db ++ [recordOfQuery (createDocumentStateVectorKey d)
      (encodeStateVectorValue 0 (M.merge [(M.merge []).1]).2)],
      matchesQuery (createDocumentUpdateKey d (some 0)) r = false := by
    intro r hr
    rcases List.mem_append.mp hr with h | h
    · exact bool_eq_false_of_not
        (fun hm => hnd r h (matches_updateKey_some_iff.mp hm).2.2.1)
    · simp only [List.mem_singleton] at h
      subst h
      apply bool_eq_false_of_not
      intro hm
      have hv : ("v1_sv" : String) = "v1" := (matches_updateKey_some_iff.mp hm).1
      exact absurd hv (by decide)
  have hstore : storeUpdate M db d (M.merge []).1 =
      .ok ((db ++ [recordOfQuery (createDocumentStateVectorKey d)
          (encodeStateVectorValue 0 (M.merge [(M.merge []).1]).2)]) ++
        [recordOfQuery (createDocumentUpdateKey d (some 0)) (M.merge []).1], 0) := by
    rw [storeUpdate, hcur, if_pos rfl, writeStateVector,
      adapterPut_svKey db d _ hd, ok_bind]
    try dsimp only
    rw [upsertRecord_of_no_match hnosv]
    rw [show ((-1 : Int) + 1).toNat = 0 from rfl]
    rw [if_pos hsmall, adapterPut_updateKey _ d 0 _ hd, ok_bind]
    try dsimp only
    rw [upsertRecord_of_no_match hnoupd]
    rfl
  have hany : ((db ++ [recordOfQuery (createDocumentStateVectorKey d)
      (encodeStateVectorValue 0 (M.merge [(M.merge []).1]).2)]) ++
      [recordOfQuery (createDocumentUpdateKey d (some 0)) (M.merge []).1]).any
      (matchesQuery (createDocumentStateVectorKey d)) = true :=
    List.any_eq_true.mpr ⟨recordOfQuery (createDocumentStateVectorKey d)
      (encodeStateVectorValue 0 (M.merge [(M.merge []).1]).2),
      by simp, matches_svKey_iff.mpr ⟨rfl, rfl⟩⟩
  have hflush : flushDocument M db d (M.merge []).1 (M.merge []).2 =
      .ok (db ++ [recordOfQuery (createDocumentStateVectorKey d)
            (encodeStateVectorValue 0 (M.merge []).2),
          updateRecordOf d 0 (M.merge []).1], 0) := by
    rw [flushDocument, hstore, ok_bind]
    try dsimp only
    rw [writeStateVector, adapterPut_svKey _ d _ hd, ok_bind]
    try dsimp only
    rw [upsertRecord, if_pos hany, List.append_assoc]
    rw [show [recordOfQuery (createDocumentStateVectorKey d)
          (encodeStateVectorValue 0 (M.merge [(M.merge []).1]).2)] ++
        [recordOfQuery (createDocumentUpdateKey d (some 0)) (M.merge []).1] =
        recordOfQuery (createDocumentStateVectorKey d)
          (encodeStateVectorValue 0 (M.merge [(M.merge []).1]).2) ::
        [recordOfQuery (createDocumentUpdateKey d (some 0)) (M.merge []).1] from rfl]
    rw [setValueFirst_append _ _ hnosv (matches_svKey_iff.mpr ⟨rfl, rfl⟩)]
    rw [clearUpdatesRange_empty]
    rfl
  have hsvget : adapterGet db (createDocumentStateVectorKey d) = none := by
    rw [adapterGet, List.filter_eq_nil_iff.mpr
      (fun r hr hm => by rw [hnosv r hr] at hm; cases hm)]
    rfl
  constructor
  · rw [getYDoc, hok, ok_bind]
    try dsimp only
    rw [if_neg (show ¬fs < ([] : List Bytes).length by simp)]
    rfl
  · rw [getStateVector, readStateVector, hsvget]
    try dsimp only
    rw [ok_bind]
    try dsimp only
    rw [hok, ok_bind]
    try dsimp only
    rw [hflush, ok_bind]
    rfl

theorem nonexistent_doc_confinement_witness :
    getYDoc trivialYModel [⟨"v1", "other", some "update", some 0, none, none, [1]⟩]
      "doc" 0 =
      .ok ([⟨"v1", "other", some "update", some 0, none, none, [1]⟩], ([], [])) ∧
    getStateVector trivialYModel
      [⟨"v1", "other", some "update", some 0, none, none, [1]⟩] "doc" =
      .ok ([⟨"v1", "other", some "update", some 0, none, none, [1]⟩,
            ⟨"v1_sv", "doc", none, none, none, none, [0, 0]⟩,
            ⟨"v1", "doc", some "update", some 0, none, none, []⟩], []) := by
  obtain ⟨h1, h2⟩ := nonexistent_doc_confinement trivialYModel
    [⟨"v1", "other", some "update", some 0, none, none, [1]⟩] "doc" 0
    (by decide) (by decide) (by decide)
  exact ⟨h1, h2⟩

theorem updateRecords_chunkedDb :
    updateRecords chunkedDb "doc" =
      [⟨"v1", "doc", some "update", some 0, some 1, none, List.replicate 15000000 0⟩,
       ⟨"v1", "doc", some "update", some 0, some 2, none, [0]⟩] := rfl

theorem bigPayload_split :
    bigPayload = List.replicate 15000000 0 ++ [0] := by
  rw [bigPayload, show (15000001 : Nat) = 15000000 + 1 from by norm_num,
    List.replicate_succ']

theorem getMongoUpdates_chunkedDb :
    getMongoUpdates chunkedDb "doc" = .ok [bigPayload] := by
  rw [getMongoUpdates_eq, updateRecords_chunkedDb, bigPayload_split]
  rfl

/-- With `flushSize = 1`, a document whose single logical update is stored
as two chunk records is not compacted by `getYDoc`, even though the
stored update record count (2) exceeds the threshold (1): the trigger
counts reassembled updates, and the store is returned unchanged. -/
theorem getYDoc_threshold_counterexample :
    1 < (updateRecords chunkedDb "doc").length ∧
    getYDoc trivialYModel chunkedDb "doc" 1 =
      .ok (chunkedDb, trivialYModel.merge [bigPayload]) := by
  constructor
  · rw [updateRecords_chunkedDb]
    decide
  · rw [getYDoc, getMongoUpdates_chunkedDb, ok_bind]
    try dsimp only
    rw [if_neg (show ¬(1 : Nat) < [bigPayload].length by decide)]
    rfl

/-- Claim C9, amended: `getYDoc` triggers a compaction if and only if the
number of reassembled logical updates exceeds `flushSize` (a chunked
payload stored as several records counts once); at or below the
threshold no compaction occurs and the store is returned unchanged. -/
theorem getYDoc_flush_threshold (M : YModel) (db : DB) (d : String)
    (fs : Nat) (us : List Bytes) (hok : getMongoUpdates db d = .ok us) :
    (us.length ≤ fs → getYDoc M db d fs = .ok (db, M.merge us)) ∧
    (fs < us.length → d ≠ "" →
      ∃ (dbF : DB) (n : Nat),
        flushDocument M db d (M.merge us).1 (M.merge us).2 = .ok (dbF, n) ∧
        getYDoc M db d fs = .ok (dbF, M.merge us)) := by
  constructor
  · intro hle
    rw [getYDoc, hok, ok_bind]
    try dsimp only
    rw [if_neg (by omega)]
    rfl
  · intro hlt hd
    obtain ⟨⟨dbF, n⟩, hfl⟩ := flushDocument_ok M db (M.merge us).1 (M.merge us).2 hd
    rw [getYDoc, hok, ok_bind]
    try dsimp only
    rw [if_pos hlt, hfl, ok_bind]
    exact ⟨dbF, n, rfl, rfl⟩

theorem getYDoc_flush_threshold_witness :
    getYDoc trivialYModel
      [⟨"v1", "d", some "update", some 0, none, none, [4]⟩,
       ⟨"v1", "d", some "update", some 1, none, none, [5]⟩] "d" 2 =
      .ok ([⟨"v1", "d", some "update", some 0, none, none, [4]⟩,
            ⟨"v1", "d", some "update", some 1, none, none, [5]⟩], ([4, 5], [4, 5])) ∧
    ∃ (dbF : DB) (n : Nat),
      flushDocument trivialYModel
        [⟨"v1", "d", some "update", some 0, none, none, [4]⟩,
         ⟨"v1", "d", some "update", some 1, none, none, [5]⟩] "d" [4, 5] [4, 5] =
        .ok (dbF, n) ∧
      getYDoc trivialYModel
        [⟨"v1", "d", some "update", some 0, none, none, [4]⟩,
         ⟨"v1", "d", some "update", some 1, none, none, [5]⟩] "d" 1 =
        .ok (dbF, ([4, 5], [4, 5])) := by
  constructor
  · exact (getYDoc_flush_threshold trivialYModel
      [⟨"v1", "d", some "update", some 0, none, none, [4]⟩,
       ⟨"v1", "d", some "update", some 1, none, none, [5]⟩] "d" 2 [[4], [5]]
      (by decide)).1 (by decide)
  · obtain ⟨dbF, n, ha, hb⟩ := (getYDoc_flush_threshold trivialYModel
      [⟨"v1", "d", some "update", some 0, none, none, [4]⟩,
       ⟨"v1", "d", some "update", some 1, none, none, [5]⟩] "d" 1 [[4], [5]]
      (by decide)).2 (by decide) (by decide)
    exact ⟨dbF, n, ha, hb⟩

/-- Claim C10: a falsy metadata value (0, empty string, false, null,
undefined) makes the adapter's `put` guard throw inside the queued
operation, so `setMeta` stores no record and its caller receives the
caught-failure result (`none`) rather than the value; a subsequent
`getMeta` for a key that was never successfully written returns the
absent result, not a stored value and not an error. -/
theorem setMeta_falsy_value (db : List MetaDoc) (d k : String) (v : JsValue)
    (hv : v.truthy = false)
    (hfresh : ∀ r ∈ db, ¬(r.docName = d ∧ r.metaKey = "meta_" ++ k)) :
    setMetaJs db d k v = (db, none) ∧ getMetaJs db d k = none := by
  constructor
  · rw [setMetaJs, putMetaJs, if_pos (Or.inr hv)]
  · rw [getMetaJs,
      List.filter_eq_nil_iff.mpr (fun r hr => by simpa using hfresh r hr)]
    rfl

theorem setMeta_falsy_value_witness :
    setMetaJs [] "doc1" "owner" (.num 0) = ([], none) ∧
    getMetaJs [] "doc1" "owner" = none := by
  obtain ⟨h1, h2⟩ := setMeta_falsy_value [] "doc1" "owner" (.num 0) (by decide)
    (fun r hr => absurd hr (List.not_mem_nil r))
  exact ⟨h1, h2⟩
